import Mathlib

/-
Verification of the GerryChain-dev tree-partitioning core and graph layer.

The development shallowly embeds the Python sources:
  * gerrychain/graph/graph.py   (Graph.lookup, Graph.node_data, Graph.subgraph,
    translation maps, Graph.is_a_tree)
  * gerrychain/proposals/spectral_proposals.py (spectral_cut, spectral_recom)
  * new_graph.py                (FrozenGraph)
  * gerrychain/tree.py is absent from the source tree (only its tests remain),
    so PopulatedGraph, the spanning-tree samplers, the balanced-edge-cut
    finders, bipartition_tree and recursive_tree_part are modelled from the
    specification (spec.md sections 3 to 8); each such definition carries a
    doc comment starting with "Modelled from the spec:".

Machine integers do not occur (Python ints are unbounded); populations and
tolerances are rationals.  Fallible code returns Except / Option.
-/

namespace GerryChain

/-! ## Python-level value and error model (graph.py, new_graph.py) -/

/-- Association-list lookup with decidable equality on the keys. -/
def alookup {α β : Type} [DecidableEq α] : List (α × β) → α → Option β
  | [], _ => Option.none
  | (k, v) :: rest, a => if k = a then some v else alookup rest a

theorem alookup_mem {α β : Type} [DecidableEq α] {l : List (α × β)} {a : α}
    {b : β} (h : alookup l a = some b) : (a, b) ∈ l := by
  induction l with
  | nil => cases h
  | cons kv rest ih =>
      obtain ⟨k, v⟩ := kv
      simp only [alookup] at h
      by_cases hk : k = a
      · rw [if_pos hk] at h
        cases h
        rw [hk]
        exact List.mem_cons_self _ _
      · rw [if_neg hk] at h
        exact List.mem_cons_of_mem _ (ih h)

/-- Python exception classes that the embedded code can raise. -/
inductive PyError where
  | typeError
  | keyError
  | runtimeError
  | attributeError
  deriving DecidableEq, Repr

/-- A small universe of Python values: what the node and edge data
dictionaries of the graphs store. -/
inductive PyVal where
  | int : Int → PyVal
  | rat : ℚ → PyVal
  | str : String → PyVal
  | dict : List (String × PyVal) → PyVal
  | none : PyVal

/-- Calling a Python function with a positional argument list: the call
raises TypeError when the number of arguments differs from the number of
declared parameters, and otherwise runs the body. -/
def callPy (params : List String) (args : List PyVal)
    (body : List PyVal → Except PyError PyVal) : Except PyError PyVal :=
  if args.length = params.length then body args else .error .typeError

/-! ## The backing store of a Graph (graph.py)

A Graph holds either a NetworkX graph or a RustworkX graph.  For the node
data both backends expose a node-id keyed store of data dictionaries;
`node_data` dispatches on the backend and reads that store. -/

/-- Which backend a graph.py Graph wraps (`is_rx_graph` / `is_nx_graph`). -/
inductive Backend where
  | rx
  | nx
  deriving DecidableEq, Repr

/-- Embedding of the parts of a graph.py `Graph` object that `node_data`
and `lookup` touch: the backend tag and the node-id keyed store of node
data dictionaries (each a list of string keyed attributes). -/
structure PGraph where
  backend : Backend
  nodeStore : List (Nat × List (String × PyVal))

/-- Positional parameters of `Graph.node_data` besides `self`
(graph.py line 1512: `def node_data(self, node_id)`). -/
def node_data_params : List String := ["node_id"]

/-- Reading the data dictionary of one node out of the backing store; both
the RX branch (`self._rx_graph[node_id]`) and the NX branch
(`self._nx_graph.nodes[node_id]`) fetch the dictionary stored at the
node id, raising a lookup error when the node is absent. -/
def PGraph.fetchNodeDict (g : PGraph) (nodeId : Nat) : Except PyError PyVal :=
  match alookup g.nodeStore nodeId with
  | some d => .ok (.dict d)
  | Option.none => .error .keyError

/-- Embedding of `Graph.node_data` (graph.py lines 1512-1527) as a Python
callable: one declared parameter `node_id`; the body dispatches on the
backend and returns the node data dictionary. -/
def PGraph.node_data (g : PGraph) (args : List PyVal) : Except PyError PyVal :=
  callPy node_data_params args (fun as =>
    match as with
    | [PyVal.int (Int.ofNat nodeId)] =>
        match g.backend with
        | .rx => g.fetchNodeDict nodeId
        | .nx => g.fetchNodeDict nodeId
    | _ => .error .keyError)

/-- Embedding of `Graph.lookup` (graph.py lines 736-757): its body is
`return self.node_data(node, field)`, forwarding the two positional
arguments `node` and `field` to `node_data`. -/
def PGraph.lookup (g : PGraph) (node field : PyVal) : Except PyError PyVal :=
  g.node_data [node, field]

/-! ## FrozenGraph (new_graph.py lines 584-666) -/

/-- The adjacency-level graph object that new_graph.py builds on: a node
list, an edge list, and a node-data store.  This is the frozen copy that
a FrozenGraph wraps. -/
structure RxGraph where
  nodes : List Nat
  edges : List (Nat × Nat)
  data : List (Nat × List (String × PyVal))

/-- Neighbor list of a node: the other endpoint of every incident edge. -/
def RxGraph.neighbors (g : RxGraph) (n : Nat) : List Nat :=
  (g.edges.filter (fun e => e.1 = n)).map (·.2) ++
    (g.edges.filter (fun e => e.2 = n)).map (·.1)

/-- Degree of a node: the number of incident edges. -/
def RxGraph.degree (g : RxGraph) (n : Nat) : Nat :=
  (g.neighbors n).length

/-- Field lookup in the node data store (`self.graph[node][field]`). -/
def RxGraph.lookupField (g : RxGraph) (n : Nat) (field : String) :
    Except PyError PyVal :=
  match alookup g.data n with
  | some d =>
      match alookup d field with
      | some v => .ok v
      | Option.none => .error .keyError
  | Option.none => .error .keyError

/-- Embedding of a `FrozenGraph` (new_graph.py): it holds a private frozen
copy of the wrapped graph and the node count taken at freeze time. -/
structure FrozenGraph where
  graph : RxGraph
  size : Nat

/-- `FrozenGraph.__init__`: copy the graph (the copy is what freezes it)
and record the node count. -/
def FrozenGraph.init (g : RxGraph) : FrozenGraph :=
  { graph := g, size := g.nodes.length }

/-- The mutation methods that `FrozenGraph.__getattribute__` blocks
(new_graph.py lines 621-630). -/
def frozen_blocked_methods : List String :=
  ["add_node", "add_nodes_from", "add_edge", "add_edges_from",
   "remove_node", "remove_nodes_from", "remove_edge", "remove_edges_from"]

/-- The attributes that a FrozenGraph object resolves on itself: its two
slots and the methods defined in the class body (new_graph.py lines
603-665); `object.__getattribute__(self, name)` finds exactly these. -/
def frozen_own_attrs : List String :=
  ["graph", "size", "neighbors", "node_indices", "edge_indices",
   "degree", "lookup", "subgraph"]

/-- Where an attribute access on a FrozenGraph lands. -/
inductive AttrAccess where
  | own : String → AttrAccess
  | delegated : String → AttrAccess
  deriving DecidableEq, Repr

/-- Embedding of `FrozenGraph.__getattribute__` (new_graph.py lines
617-632): first try the object itself; on AttributeError, raise
RuntimeError for the blocked mutation methods and otherwise delegate the
access to the frozen copy `self.graph`. -/
def FrozenGraph.getattribute (_fg : FrozenGraph) (name : String) :
    Except PyError AttrAccess :=
  if name ∈ frozen_own_attrs then
    .ok (.own name)
  else if name ∈ frozen_blocked_methods then
    .error .runtimeError
  else
    .ok (.delegated name)

/-! ### The lru_cache memoization on FrozenGraph.neighbors / degree / lookup

new_graph.py memoizes these three methods with `functools.lru_cache`.
The cache is modelled explicitly: a list of argument/result pairs that is
consulted first and extended on a miss. -/

/-- One memoized call: consult the cache, on a miss compute and record. -/
def cachedCall {α β : Type} [DecidableEq α] (cache : List (α × β))
    (f : α → β) (a : α) : β × List (α × β) :=
  match alookup cache a with
  | some v => (v, cache)
  | Option.none => (f a, (a, f a) :: cache)

/-- A cache is coherent with the function it memoizes when every recorded
result is the value of the function. -/
def CacheOk {α β : Type} [DecidableEq α] (cache : List (α × β)) (f : α → β) :
    Prop :=
  ∀ a b, (a, b) ∈ cache → b = f a

/-- The memoized `FrozenGraph.neighbors` body (before caching):
`tuple(self.graph.neighbors(n))`. -/
def FrozenGraph.neighborsRaw (fg : FrozenGraph) (n : Nat) : List Nat :=
  fg.graph.neighbors n

/-- The memoized `FrozenGraph.degree` body: `self.graph.degree(n)`. -/
def FrozenGraph.degreeRaw (fg : FrozenGraph) (n : Nat) : Nat :=
  fg.graph.degree n

/-- The memoized `FrozenGraph.lookup` body: `self.graph[node][field]`. -/
def FrozenGraph.lookupRaw (fg : FrozenGraph) (nf : Nat × String) :
    Except PyError PyVal :=
  fg.graph.lookupField nf.1 nf.2

/-! ## The adjacency-level graph consumed by the tree module

The spec (section 3) treats the graph as an external collaborator: a node
set plus an undirected edge set over dense integer node ids.  -/

/-- A finite undirected graph: a node list and an edge list. -/
structure FinGraph where
  nodes : List Nat
  edges : List (Nat × Nat)

/-- Adjacency: an edge in either orientation. -/
def FinGraph.adj (g : FinGraph) (u v : Nat) : Prop :=
  (u, v) ∈ g.edges ∨ (v, u) ∈ g.edges

instance (g : FinGraph) (u v : Nat) : Decidable (g.adj u v) := by
  unfold FinGraph.adj
  infer_instance

/-- Well-formedness of a graph: distinct node ids, edges between nodes,
no self loops. -/
structure FinGraph.WF (g : FinGraph) : Prop where
  nodup : g.nodes.Nodup
  edge_fst : ∀ e ∈ g.edges, e.1 ∈ g.nodes
  edge_snd : ∀ e ∈ g.edges, e.2 ∈ g.nodes
  no_self : ∀ e ∈ g.edges, e.1 ≠ e.2

/-- Reachability from a to b inside the node set S, walking edges of g
whose endpoints stay in S. -/
inductive ReachIn (g : FinGraph) (S : List Nat) : Nat → Nat → Prop where
  | refl : ∀ a, a ∈ S → ReachIn g S a a
  | tail : ∀ a b c, ReachIn g S a b → g.adj b c → c ∈ S → ReachIn g S a c

/-- A node set induces a connected subgraph when all its members are
mutually reachable without leaving the set. -/
def ConnSet (g : FinGraph) (S : List Nat) : Prop :=
  ∀ a ∈ S, ∀ b ∈ S, ReachIn g S a b

/-- A list of directed (child, parent) pairs all being edges of g. -/
def EdgesOk (g : FinGraph) (l : List (Nat × Nat)) : Prop :=
  ∀ e ∈ l, g.adj e.1 e.2

instance (g : FinGraph) (l : List (Nat × Nat)) : Decidable (EdgesOk g l) := by
  unfold EdgesOk
  infer_instance

/-! ## Rooted trees

A sampled spanning tree is processed rooted (the finders root it at an
arbitrary node, spec section 4.3), so trees are represented as rooted
trees with integer node ids. -/

mutual

/-- A rooted tree over integer node ids. -/
inductive RTree : Type where
  | node : Nat → RForest → RTree

/-- A list of child subtrees. -/
inductive RForest : Type where
  | nil : RForest
  | cons : RTree → RForest → RForest

end

/-- The id at the root of a rooted tree. -/
def RTree.rootId : RTree → Nat
  | .node i _ => i

/-- The forest of child subtrees below the root. -/
def RTree.forest : RTree → RForest
  | .node _ f => f

mutual

/-- All node ids of a rooted tree, root first. -/
def nodesT : RTree → List Nat
  | .node i f => i :: nodesF f

/-- All node ids of a forest. -/
def nodesF : RForest → List Nat
  | .nil => []
  | .cons t f => nodesT t ++ nodesF f

end

mutual

/-- The cut candidates of a rooted tree: every non-root node together
with its parent id, as (child-subtree, parent-id) pairs. -/
def candT : RTree → List (RTree × Nat)
  | .node i f => candF f i

/-- Cut candidates of a forest hanging below the parent id p. -/
def candF : RForest → Nat → List (RTree × Nat)
  | .nil, _ => []
  | .cons t f, p => (t, p) :: (candT t ++ candF f p)

end

/-- The (child, parent) edge list of a rooted tree: one edge per cut
candidate. -/
def edgesT (t : RTree) : List (Nat × Nat) :=
  (candT t).map (fun cp => (cp.1.rootId, cp.2))

/-- The (child, parent) edge list of a forest below parent p. -/
def edgesF (f : RForest) (p : Nat) : List (Nat × Nat) :=
  (candF f p).map (fun cp => (cp.1.rootId, cp.2))

mutual

/-- Total population of a rooted tree under a per-node population map. -/
def popT (pop : Nat → ℚ) : RTree → ℚ
  | .node i f => pop i + popF pop f

/-- Total population of a forest. -/
def popF (pop : Nat → ℚ) : RForest → ℚ
  | .nil => 0
  | .cons t f => popT pop t + popF pop f

end

/-- Population of a node list. -/
def popSum (pop : Nat → ℚ) (l : List Nat) : ℚ :=
  (l.map pop).sum

/-! ## Connected components (graph.py lines 1700-1737)

graph.py delegates component discovery to the graph backend
(rustworkx.connected_components / networkx.connected_components); the
backend computation is a breadth-first closure per component. -/

/-- Boolean adjacency test. -/
def FinGraph.adjB (g : FinGraph) (u v : Nat) : Bool :=
  decide ((u, v) ∈ g.edges) || decide ((v, u) ∈ g.edges)

/-- One breadth-first expansion step: add every node of the graph that is
adjacent to the current set and not yet in it. -/
def expandOnce (g : FinGraph) (S : List Nat) : List Nat :=
  S ++ g.nodes.filter (fun v => decide (v ∉ S) && S.any (fun u => g.adjB u v))

/-- Iterated expansion. -/
def expandIter (g : FinGraph) : Nat → List Nat → List Nat
  | 0, S => S
  | n + 1, S => expandIter g n (expandOnce g S)

/-- All nodes reachable from v: expansion iterated as many times as the
graph has nodes, which reaches the closure. -/
def reachClosure (g : FinGraph) (v : Nat) : List Nat :=
  expandIter g g.nodes.length [v]

/-- A node set closed under taking graph neighbors. -/
def Closed (g : FinGraph) (S : List Nat) : Prop :=
  ∀ u ∈ S, ∀ w ∈ g.nodes, g.adj u w → w ∈ S

/-- Counting components: walk the node list, opening a new component (and
covering its closure) at each not-yet-covered node. -/
def componentsCount (g : FinGraph) : List Nat → List Nat → Nat
  | [], _ => 0
  | v :: rest, cov =>
      if v ∈ cov then componentsCount g rest cov
      else componentsCount g rest (cov ++ reachClosure g v) + 1

/-- Embedding of `num_connected_components` (graph.py lines 1700-1711):
the number of connected components the backend reports. -/
def FinGraph.num_connected_components (g : FinGraph) : Nat :=
  componentsCount g g.nodes []

/-- Embedding of `Graph.is_a_tree` (graph.py lines 1713-1737, RX branch):
false when the edge count is not one less than the node count, false when
there is more than one connected component, and true otherwise. -/
def FinGraph.is_a_tree (g : FinGraph) : Bool :=
  if g.edges.length ≠ g.nodes.length - 1 then false
  else if g.num_connected_components ≠ 1 then false
  else true

/-- Executable connectivity test: every node lies in the closure of the
first node. -/
def FinGraph.connectedB (g : FinGraph) : Bool :=
  g.nodes.all (fun x => decide (x ∈ reachClosure g (g.nodes.headD 0)))

/-- The members of l that are not members of m. -/
def listDiff (l m : List Nat) : List Nat :=
  l.filter (fun x => decide (x ∉ m))

/-! ## The random source (spec section 5)

Randomness is drawn from the single shared pseudo-random module source,
seeded externally; it is embedded as an explicit generator state threaded
through every sampler and finder call. -/

/-- The state of the shared pseudo-random generator. -/
structure Rng where
  state : Nat
  deriving DecidableEq, Repr

/-- Advance the generator (a linear congruential step); returns a
pseudo-random natural below 2^31 and the next state. -/
def Rng.next (r : Rng) : Nat × Rng :=
  let s2 := (r.state * 1103515245 + 12345) % 2147483648
  (s2, ⟨s2⟩)

/-- A pseudo-random natural below n (0 when n = 0). -/
def Rng.below (r : Rng) (n : Nat) : Nat × Rng :=
  let (x, r2) := r.next
  (x % n, r2)

/-- Model of random.random(): a rational in the unit interval. -/
def Rng.unit (r : Rng) : ℚ × Rng :=
  let (x, r2) := r.next
  ((x : ℚ) / 2147483648, r2)

/-! ## Spanning-tree samplers (spec section 4.2)

gerrychain/tree.py is absent from src, so both samplers are modelled
from the spec. -/

mutual

/-- Attach v as a new leaf child of the node with id u. -/
def attachT (t : RTree) (u v : Nat) : RTree :=
  match t with
  | .node i f =>
      if i = u then .node i (.cons (.node v .nil) (attachF f u v))
      else .node i (attachF f u v)

/-- Attach v below u inside a forest. -/
def attachF (f : RForest) (u v : Nat) : RForest :=
  match f with
  | .nil => .nil
  | .cons t f2 => .cons (attachT t u v) (attachF f2 u v)

end

/-- The crossing edges from a covered node set, oriented as
(covered endpoint, uncovered endpoint) and carrying the edge weight. -/
def crossingW (edges : List (Nat × Nat)) (w : (Nat × Nat) → ℚ)
    (cov : List Nat) : List ((Nat × Nat) × ℚ) :=
  edges.filterMap (fun e =>
    if e.1 ∈ cov ∧ e.2 ∉ cov then some ((e.1, e.2), w e)
    else if e.2 ∈ cov ∧ e.1 ∉ cov then some ((e.2, e.1), w e)
    else Option.none)

/-- The element minimizing f, scanning left to right. -/
def pickMinBy {α : Type} (f : α → ℚ) : List α → Option α
  | [] => Option.none
  | x :: xs => some (xs.foldl (fun b y => if f y < f b then y else b) x)

/-- Independent uniform weights for the edge list, drawn from the
generator in edge-list order. -/
def assignWeights (edges : List (Nat × Nat)) (r : Rng) :
    List ((Nat × Nat) × ℚ) × Rng :=
  match edges with
  | [] => ([], r)
  | e :: rest =>
      let (w, r2) := r.unit
      let (ws, r3) := assignWeights rest r2
      ((e, w) :: ws, r3)

/-- Weight lookup for an assigned weight list. -/
def weightOf (ws : List ((Nat × Nat) × ℚ)) (e : Nat × Nat) : ℚ :=
  match alookup ws e with
  | some w => w
  | Option.none => 0

/-- Modelled from the spec: the tree-growing loop of the minimum
spanning tree computation inside `random_spanning_tree` (spec section
4.2; gerrychain/tree.py is absent from src).  At each step the cheapest
edge crossing from the grown tree to an uncovered node is added; the
loop stops when every node is covered, and fails (the structural
invariant error of section 4.2) when no crossing edge exists. -/
def primLoop (edges : List (Nat × Nat)) (w : (Nat × Nat) → ℚ)
    (nodes : List Nat) : Nat → RTree → Option RTree
  | 0, t =>
      if nodes.all (fun v => decide (v ∈ nodesT t)) then some t
      else Option.none
  | fuel + 1, t =>
      if nodes.all (fun v => decide (v ∈ nodesT t)) then some t
      else
        match pickMinBy Prod.snd (crossingW edges w (nodesT t)) with
        | Option.none => Option.none
        | some (uv, _) => primLoop edges w nodes fuel (attachT t uv.1 uv.2)

/-- Modelled from the spec: `random_spanning_tree` (section 4.2):
assign each edge an independent random weight, then compute a minimum
spanning tree under that weighting by a standard MST algorithm. -/
def random_spanning_tree (g : FinGraph) (r : Rng) : Option RTree × Rng :=
  match g.nodes with
  | [] => (Option.none, r)
  | v :: _ =>
      let (ws, r2) := assignWeights g.edges r
      (primLoop g.edges (weightOf ws) g.nodes g.nodes.length
        (.node v .nil), r2)

/-- The neighbor list of u in an undirected edge list. -/
def neighborsOf (edges : List (Nat × Nat)) (u : Nat) : List Nat :=
  edges.filterMap (fun e =>
    if e.1 = u then some e.2
    else if e.2 = u then some e.1
    else Option.none)

/-- Modelled from the spec: one loop-erased random walk of
`uniform_spanning_tree` (section 4.2): walk from the head of the path,
erase the loop when the walk revisits a node on the path, stop when a
tree node is hit; fuel bounds the walk length (the walk terminates only
almost surely). -/
def lerw (edges : List (Nat × Nat)) (treeNodes : List Nat) :
    Nat → List Nat → Rng → Option ((Nat × List Nat) × Rng)
  | 0, _, _ => Option.none
  | fuel + 1, path, r =>
      match path with
      | [] => Option.none
      | u :: _ =>
          let nbrs := neighborsOf edges u
          if nbrs.length = 0 then Option.none
          else
            let (i, r2) := r.below nbrs.length
            let w := nbrs.getD i 0
            if w ∈ treeNodes then some ((w, path), r2)
            else if w ∈ path then
              lerw edges treeNodes fuel
                (path.dropWhile (fun x => decide (x ≠ w))) r2
            else lerw edges treeNodes fuel (w :: path) r2

/-- Graft a walked path onto the tree: the path head is attached below
the hit tree node, and each later path node below the previous one. -/
def attachChain (t : RTree) : Nat → List Nat → RTree
  | _, [] => t
  | anchor, x :: rest => attachChain (attachT t anchor x) x rest

/-- Modelled from the spec: the outer cycle-popping loop of
`uniform_spanning_tree` (section 4.2): absorb each not-yet-included node
by a loop-erased random walk from it. -/
def wilsonLoop (edges : List (Nat × Nat)) (walkFuel : Nat) :
    List Nat → RTree → Rng → Option (RTree × Rng)
  | [], t, r => some (t, r)
  | v :: rest, t, r =>
      if v ∈ nodesT t then wilsonLoop edges walkFuel rest t r
      else
        match lerw edges (nodesT t) walkFuel [v] r with
        | Option.none => Option.none
        | some ((w, path), r2) =>
            wilsonLoop edges walkFuel rest (attachChain t w path) r2

/-- Modelled from the spec: `uniform_spanning_tree` (section 4.2):
Wilson cycle-popping from a first root, with explicit walk fuel. -/
def uniform_spanning_tree (g : FinGraph) (walkFuel : Nat) (r : Rng) :
    Option (RTree × Rng) :=
  match g.nodes with
  | [] => Option.none
  | v :: rest => wilsonLoop g.edges walkFuel rest (.node v .nil) r

/-- Consecutive adjacency of a path hanging from an anchor node. -/
def ChainOk (g : FinGraph) : Nat → List Nat → Prop
  | _, [] => True
  | a, x :: rest => g.adj a x ∧ ChainOk g x rest

/-! ## PopulatedGraph and the balanced-edge-cut finders
(spec sections 3, 4.1, 4.3; gerrychain/tree.py is absent from src) -/

/-- The list of child subtrees of a forest. -/
def asList : RForest → List RTree
  | .nil => []
  | .cons t f => t :: asList f

/-- Modelled from the spec: PopulatedGraph (section 3): wraps the
spanning tree under search (rooted for traversal), the per-node
population map, the ideal population and the fractional tolerance
epsilon; the mutable subtree-population map lives in the contraction
search state below. -/
structure PopulatedGraph where
  tree : RTree
  population : Nat → ℚ
  ideal_pop : ℚ
  epsilon : ℚ

/-- Modelled from the spec: population_of (section 4.1). -/
def PopulatedGraph.population_of (pg : PopulatedGraph) (n : Nat) : ℚ :=
  pg.population n

/-- Total population of the wrapped tree. -/
def PopulatedGraph.tot_pop (pg : PopulatedGraph) : ℚ :=
  popT pg.population pg.tree

/-- Membership of x in the acceptance band
[ideal*(1 - eps), ideal*(1 + eps)] (spec sections 3 and 4.1). -/
def inBandB (ideal eps x : ℚ) : Bool :=
  decide (ideal * (1 - eps) ≤ x) && decide (x ≤ ideal * (1 + eps))

/-- Modelled from the spec: the cut condition of section 4.3 on a
subtree population x against the complement tot - x: with one_sided_cut
only one side must lie in the band, otherwise both must. -/
def balancedB (ideal eps tot : ℚ) (one_sided : Bool) (x : ℚ) : Bool :=
  if one_sided then inBandB ideal eps x || inBandB ideal eps (tot - x)
  else inBandB ideal eps x && inBandB ideal eps (tot - x)

/-- A cut (spec section 3): the tree edge as a (child, parent) pair, the
node set below the edge, and its population. -/
structure Cut where
  edge : Nat × Nat
  subset : List Nat
  subset_pop : ℚ
  deriving DecidableEq, Repr

mutual

/-- Modelled from the spec: the one bottom-up traversal of the direct /
memoized method (section 4.3): each node subtree population is its own
population plus the sum of its children; returns the memo table and the
subtree total. -/
def buildT (pop : Nat → ℚ) : RTree → (List (Nat × ℚ)) × ℚ
  | .node i f =>
      let pf := buildF pop f
      ((i, pop i + pf.2) :: pf.1, pop i + pf.2)

/-- The bottom-up traversal over a forest. -/
def buildF (pop : Nat → ℚ) : RForest → (List (Nat × ℚ)) × ℚ
  | .nil => ([], 0)
  | .cons t f =>
      let pt := buildT pop t
      let pf := buildF pop f
      (pt.1 ++ pf.1, pt.2 + pf.2)

end

/-- Subtree-population lookup in the memo table (0 when absent). -/
def tableLookup (tbl : List (Nat × ℚ)) (n : Nat) : ℚ :=
  match alookup tbl n with
  | some q => q
  | Option.none => 0

/-- Modelled from the spec: find_balanced_edge_cuts_memoization (section
4.3): one bottom-up traversal computes all subtree populations, then
every non-root node is scanned; its edge to the parent is a balanced cut
when the subtree population (and, unless one_sided_cut, the complement)
falls in the acceptance band. -/
def find_balanced_edge_cuts_memoization (pg : PopulatedGraph)
    (one_sided_cut : Bool := false) : List Cut :=
  let tbl := (buildT pg.population pg.tree).1
  let total := (buildT pg.population pg.tree).2
  (candT pg.tree).filterMap (fun cp =>
    let sub := tableLookup tbl cp.1.rootId
    if balancedB pg.ideal_pop pg.epsilon total one_sided_cut sub then
      some { edge := (cp.1.rootId, cp.2), subset := nodesT cp.1,
             subset_pop := sub }
    else Option.none)

/-- The mutable state of the contraction search: the live (uncontracted)
node set and, per node, the accumulated subtree population together with
the accumulated node set (the subtree_populations map of spec section
4.1), plus the cuts found so far. -/
structure CtrState where
  live : List Nat
  acc : Nat → ℚ × List Nat
  cuts : List Cut

/-- A node is a contractible leaf of the shrunken tree: live, not the
root, and without any live child edge. -/
def isLeafB (edges : List (Nat × Nat)) (live : List Nat)
    (root v : Nat) : Bool :=
  decide (v ≠ root) &&
    edges.all (fun e => !(decide (e.2 = v) && decide (e.1 ∈ live)))

/-- Modelled from the spec: one contraction step
(PopulatedGraph.contract_node, section 4.1): record the leaf edge as a
cut when the accumulated leaf population passes the check, fold the leaf
accumulation into its parent, and drop the leaf from the live set. -/
def ctrStep (edges : List (Nat × Nat)) (check : ℚ → Bool) (s : CtrState)
    (v : Nat) : CtrState :=
  let pv := s.acc v
  let parent :=
    match alookup edges v with
    | some p => p
    | Option.none => v
  { live := s.live.erase v,
    acc := fun x =>
      if x = parent
      then ((s.acc x).1 + pv.1, (s.acc x).2 ++ pv.2)
      else s.acc x,
    cuts :=
      if check pv.1 then
        s.cuts ++ [{ edge := (v, parent), subset := pv.2,
                     subset_pop := pv.1 }]
      else s.cuts }

/-- Modelled from the spec: the contraction loop of
find_balanced_edge_cuts_contraction (section 4.3): repeatedly pick a
contractible leaf and contract it. -/
def contractLoop (edges : List (Nat × Nat)) (root : Nat)
    (check : ℚ → Bool) : Nat → CtrState → CtrState
  | 0, s => s
  | fuel + 1, s =>
      match s.live.find? (fun v => isLeafB edges s.live root v) with
      | Option.none => s
      | some v => contractLoop edges root check fuel (ctrStep edges check s v)

/-- Modelled from the spec: find_balanced_edge_cuts_contraction (section
4.3): iteratively contract leaves, shrinking the tree while checking the
cut condition at each contracted edge. -/
def find_balanced_edge_cuts_contraction (pg : PopulatedGraph)
    (one_sided_cut : Bool := false) : List Cut :=
  let total := popT pg.population pg.tree
  let init : CtrState :=
    { live := nodesT pg.tree,
      acc := fun v => (pg.population v, [v]),
      cuts := [] }
  (contractLoop (edgesT pg.tree) pg.tree.rootId
    (balancedB pg.ideal_pop pg.epsilon total one_sided_cut)
    (nodesT pg.tree).length init).cuts

/-! ## BipartitionTree (spec section 4.4) -/

/-- The error taxonomy of spec section 7: BalanceError when every
attempt is exhausted, StructuralInvariantError when a sampled spanning
tree is defective. -/
inductive TreeErr where
  | balanceError
  | structuralInvariantError
  deriving DecidableEq, Repr

/-- Decidable equality of fallible results, for concrete evaluation. -/
instance {e a : Type} [DecidableEq e] [DecidableEq a] :
    DecidableEq (Except e a) := fun x y =>
  match x, y with
  | .error e1, .error e2 =>
      if h : e1 = e2 then .isTrue (by rw [h]) else
        .isFalse (by intro hc; cases hc; exact h rfl)
  | .error _, .ok _ => .isFalse (by intro hc; cases hc)
  | .ok _, .error _ => .isFalse (by intro hc; cases hc)
  | .ok a1, .ok a2 =>
      if h : a1 = a2 then .isTrue (by rw [h]) else
        .isFalse (by intro hc; cases hc; exact h rfl)

/-- A spanning tree of the graph g: same node set, every tree edge an
edge of g. -/
structure SpanningTreeOf (g : FinGraph) (t : RTree) : Prop where
  perm : (nodesT t).Perm g.nodes
  edgesOk : EdgesOk g (edgesT t)

/-- Modelled from the spec: the retry loop of bipartition_tree (section
4.4): up to max_attempts times, sample a spanning tree (the caller may
inject one for the first attempt), run the balanced-edge-cut finder,
and on a non-empty cut set pick one cut uniformly at random and return
the corresponding node set (for a one-sided cut, the side lying in the
acceptance band); exhausting all attempts raises BalanceError, and a
failed tree sample raises the structural invariant error of section
4.2. -/
def bipartition_attempts (g : FinGraph) (pop : Nat → ℚ)
    (pop_target epsilon : ℚ) (one_sided : Bool) :
    Nat → Option RTree → Rng → Except TreeErr (List Nat × Rng)
  | 0, _, _ => .error .balanceError
  | attempts + 1, treeOpt, r =>
      let sampled : Option RTree × Rng :=
        match treeOpt with
        | some t0 => (some t0, r)
        | Option.none => random_spanning_tree g r
      match sampled with
      | (Option.none, _) => .error .structuralInvariantError
      | (some t0, r2) =>
          let pg : PopulatedGraph :=
            { tree := t0, population := pop, ideal_pop := pop_target,
              epsilon := epsilon }
          match find_balanced_edge_cuts_memoization pg one_sided with
          | [] =>
              bipartition_attempts g pop pop_target epsilon one_sided
                attempts Option.none r2
          | c :: rest =>
              let ir := r2.below (c :: rest).length
              let cut := (c :: rest).getD ir.1 c
              let part :=
                if inBandB pop_target epsilon cut.subset_pop then cut.subset
                else listDiff (nodesT t0) cut.subset
              .ok (part, ir.2)

/-- Modelled from the spec: bipartition_tree (sections 4.4 and 6):
returns a node subset whose population is within epsilon of the target
and whose two sides are connected, retrying with freshly sampled trees
up to max_attempts times.  The population attribute of the node data is
modelled as the function pop. -/
def bipartition_tree (g : FinGraph) (pop : Nat → ℚ) (pop_target : ℚ)
    (epsilon : ℚ) (max_attempts : Nat) (r : Rng)
    (one_sided_cut : Bool := false)
    (spanning_tree : Option RTree := Option.none) :
    Except TreeErr (List Nat × Rng) :=
  bipartition_attempts g pop pop_target epsilon one_sided_cut max_attempts
    spanning_tree r

/-- The subgraph of g induced on the node set s (spec section 6): the
nodes of g lying in s and the edges with both endpoints in s. -/
def FinGraph.subgraphOf (g : FinGraph) (s : List Nat) : FinGraph :=
  ⟨g.nodes.filter (fun x => decide (x ∈ s)),
   g.edges.filter (fun e => decide (e.1 ∈ s) && decide (e.2 ∈ s))⟩

/-- Modelled from the spec: the lower bound on the next peeled part,
re-derived from the running population debt (spec sections 4.5 and
8.4). -/
def rtpMinPop (t eps debt : ℚ) : ℚ :=
  max (t * (1 - eps)) (t * (1 - eps) - debt)

/-- Modelled from the spec: the upper bound on the next peeled part. -/
def rtpMaxPop (t eps debt : ℚ) : ℚ :=
  min (t * (1 + eps)) (t * (1 + eps) - debt)

/-- Modelled from the spec: the re-derived target for the next peel,
the middle of the allowed band. -/
def rtpTarget (t eps debt : ℚ) : ℚ :=
  (rtpMinPop t eps debt + rtpMaxPop t eps debt) / 2

/-- Modelled from the spec: the re-derived tolerance for the next
peel. -/
def rtpEps (t eps debt : ℚ) : ℚ :=
  (rtpMaxPop t eps debt - rtpMinPop t eps debt) /
    (2 * rtpTarget t eps debt)

/-- Modelled from the spec: the peeling loop of recursive_tree_part
(section 4.5): while more than one label remains, re-derive target and
tolerance for the next part from the running population debt (so every
part stays within epsilon of the original target, section 8.4),
bipartition the subgraph on the remaining nodes with a one-sided cut,
peel the returned part off under the next label, and give the last
label all remaining nodes.  A failed bipartition propagates its error
(spec section 4.5: no retry at this level). -/
def rtpLoop (g : FinGraph) (pop : Nat → ℚ) (pop_target eps : ℚ)
    (ma : Nat) :
    List Nat → List Nat → ℚ → Rng → List (Nat × Nat) →
    Except TreeErr (List (Nat × Nat) × Rng)
  | [], _, _, r, acc => .ok (acc, r)
  | [lab], remaining, _, r, acc =>
      .ok (acc ++ remaining.map (fun n => (n, lab)), r)
  | lab :: lab2 :: labs, remaining, debt, r, acc =>
      match bipartition_tree (g.subgraphOf remaining) pop
          (rtpTarget pop_target eps debt) (rtpEps pop_target eps debt)
          ma r true Option.none with
      | .error e => .error e
      | .ok (part, r2) =>
          rtpLoop g pop pop_target eps ma (lab2 :: labs)
            (listDiff remaining part)
            (debt + (popSum pop part - pop_target)) r2
            (acc ++ part.map (fun n => (n, lab)))

/-- Modelled from the spec: recursive_tree_part (sections 4.5 and 8.4):
assign every node of the graph to one of the given part labels by
repeatedly peeling a part off with bipartition_tree. -/
def recursive_tree_part (g : FinGraph) (parts : List Nat)
    (pop_target : ℚ) (pop : Nat → ℚ) (eps : ℚ) (ma : Nat) (r : Rng) :
    Except TreeErr (List (Nat × Nat) × Rng) :=
  rtpLoop g pop pop_target eps ma parts g.nodes 0 r []

/-- The loop invariant of the contraction search over the rooted tree t:
the live set sits inside the tree and still holds the root; a contracted
node has all of its subtree contracted; the accumulated population of a
live node counts its own population plus the subtree populations of its
contracted children; and the recorded cuts are exactly the checked edges
of contracted non-root nodes. -/
structure CtrInv (t : RTree) (pop : Nat → ℚ) (check : ℚ → Bool)
    (s : CtrState) : Prop where
  live_sub : ∀ x ∈ s.live, x ∈ nodesT t
  root_live : t.rootId ∈ s.live
  live_nodup : s.live.Nodup
  down_closed : ∀ {c : RTree} {p : Nat}, (c, p) ∈ candT t →
    c.rootId ∉ s.live → ∀ y ∈ nodesT c, y ∉ s.live
  acc_pop : ∀ c : RTree, (c = t ∨ ∃ p, (c, p) ∈ candT t) →
    c.rootId ∈ s.live →
    (s.acc c.rootId).1 = pop c.rootId +
      ((asList c.forest).map (fun k =>
        if k.rootId ∈ s.live then 0 else popT pop k)).sum
  cuts_iff : ∀ e : Nat × Nat, (∃ cut ∈ s.cuts, cut.edge = e) ↔
    ∃ c p, (c, p) ∈ candT t ∧ e = (c.rootId, p) ∧
      c.rootId ∉ s.live ∧ check (popT pop c) = true

/-- A walk path is well formed when its consecutive nodes are adjacent. -/
def PathOk (g : FinGraph) : List Nat → Prop
  | [] => True
  | a :: rest => ChainOk g a rest

/-! ## Subgraph views and the spectral proposal (sections 4.6 and 6) -/

/-- A subgraph view of a graph (graph.py Graph.subgraph, lines
1160-1260, RX branch): rustworkx renumbers the subgraph's nodes to
0..n-1 in the order the node set was listed, and the view keeps the
node_id_to_parent_node_id map built from the parent_node_id field the
parent wrote into the shared node data. -/
structure SubgraphView where
  parentIds : List Nat
  deriving DecidableEq, Repr

/-- The local node ids of a subgraph view: 0..n-1. -/
def SubgraphView.localNodes (sg : SubgraphView) : List Nat :=
  List.range sg.parentIds.length

/-- The parent node id of a local node (the node_id_to_parent_node_id
map of graph.py). -/
def SubgraphView.parentOf (sg : SubgraphView) (n : Nat) : Nat :=
  sg.parentIds.getD n 0

/-- The node data a local node of the subgraph carries: the parent
node's data (graph.py subgraph: the RX subgraph shares node data with
the parent). -/
def SubgraphView.node_data_of (sg : SubgraphView)
    (parent_data : Nat → PyVal) (n : Nat) : PyVal :=
  parent_data (sg.parentOf n)

/-- graph.py translate_subgraph_node_ids_for_set_of_nodes (lines
1275-1283): replace each subgraph node id with the parent's node id. -/
def translate_subgraph_node_ids_for_set_of_nodes (sg : SubgraphView)
    (set_of_nodes : List Nat) : List Nat :=
  set_of_nodes.map sg.parentOf

/-- graph.py translate_subgraph_node_ids_for_flips (lines 1262-1273):
re-key a flips mapping from subgraph node ids to parent node ids. -/
def translate_subgraph_node_ids_for_flips (sg : SubgraphView)
    (flips : List (Nat × Nat)) : List (Nat × Nat) :=
  flips.map (fun p => (sg.parentOf p.1, p.2))

/-- The parameter list of spectral_cut (spectral_proposals.py lines
9-11): graph, part_labels, weight_type and lap_type only; there is no
random-source parameter, the random weights below come from the shared
module generator. -/
def spectral_cut_params : List String :=
  ["graph", "part_labels", "weight_type", "lap_type"]

/-- The per-edge random weights spectral_cut writes when weight_type is
"random" (spectral_proposals.py lines 46-50): one random.random() draw
per edge id, advancing the shared module generator in place. -/
def spectral_cut_weights : List Nat → Rng → List (Nat × ℚ) × Rng
  | [], r => ([], r)
  | e :: rest, r =>
      let xr := r.unit
      let wr := spectral_cut_weights rest xr.2
      ((e, xr.1) :: wr.1, wr.2)

/-- spectral_cut keys its returned clusters by list(graph.nodes)
(spectral_proposals.py lines 43 and 80-82): on a subgraph these are the
subgraph-local ids 0..n-1; colors gives each local node's side of the
spectral split (the sign of its Fiedler-vector entry) and part_labels
the two district labels. -/
def spectral_cut_clusters (sg : SubgraphView) (part_labels : Nat × Nat)
    (colors : Nat → Bool) : List (Nat × Nat) :=
  sg.localNodes.map (fun n =>
    (n, if colors n then part_labels.2 else part_labels.1))

/-- spectral_recom (spectral_proposals.py lines 126-142): merge two
districts, take the subgraph on their union, call spectral_cut on it
and apply the returned clusters as flips directly, without translating
the subgraph-local keys back to parent node ids (the TODO at line
135). -/
def spectral_recom_flips (sg : SubgraphView) (part_labels : Nat × Nat)
    (colors : Nat → Bool) : List (Nat × Nat) :=
  spectral_cut_clusters sg part_labels colors

/-- The spanning tree of the balanced-cut finder tests (tests
test_find_balanced_cuts_contraction and test_find_balanced_cuts_memo):
nine nodes, edges (0,1), (1,2), (1,3), (3,4), (3,5), (4,6), (6,7),
(6,8), rooted at node 0. -/
def tree9 : RTree :=
  .node 0 (.cons (.node 1
    (.cons (.node 2 .nil)
      (.cons (.node 3
        (.cons (.node 4
          (.cons (.node 6
            (.cons (.node 7 .nil) (.cons (.node 8 .nil) .nil))) .nil))
          (.cons (.node 5 .nil) .nil))) .nil))) .nil)

/-- The populated graph of the finder tests: unit populations, ideal
population 9/2, epsilon 1/2. -/
def pg9 : PopulatedGraph :=
  { tree := tree9, population := fun _ => 1, ideal_pop := 9 / 2,
    epsilon := 1 / 2 }

/-- The 3x3 grid graph of the bipartition tests (fixture graph_with_pop):
nodes 0..8 in row-major order, rook adjacency. -/
def grid9 : FinGraph :=
  ⟨[0, 1, 2, 3, 4, 5, 6, 7, 8],
   [(0, 1), (1, 2), (3, 4), (4, 5), (6, 7), (7, 8),
    (0, 3), (3, 6), (1, 4), (4, 7), (2, 5), (5, 8)]⟩

/-- A spanning path of the 3x3 grid, rooted at node 0:
0-1-2-5-4-3-6-7-8. -/
def path9 : RTree :=
  .node 0 (.cons (.node 1 (.cons (.node 2 (.cons (.node 5 (.cons (.node 4
    (.cons (.node 3 (.cons (.node 6 (.cons (.node 7 (.cons (.node 8 .nil)
    .nil)) .nil)) .nil)) .nil)) .nil)) .nil)) .nil)) .nil)

/-- The populated path of the no-balanced-cuts tests: chain 0-1-2-3-4
rooted at 0, populations 4, 4, 3, 3, 3, ideal population 10, epsilon
1/10. -/
def pgPath : PopulatedGraph :=
  { tree := .node 0 (.cons (.node 1 (.cons (.node 2 (.cons (.node 3
      (.cons (.node 4 .nil) .nil)) .nil)) .nil)) .nil),
    population := fun n => if n ≤ 1 then 4 else 3,
    ideal_pop := 10, epsilon := 1 / 10 }

/-- The invariant a growing spanning tree keeps over the graph it spans:
distinct node ids, nodes of the graph, edges of the graph. -/
structure TreeInv (g : FinGraph) (t : RTree) : Prop where
  nodup : (nodesT t).Nodup
  sub : ∀ x ∈ nodesT t, x ∈ g.nodes
  edgesOk : EdgesOk g (edgesT t)

end GerryChain

namespace GerryChain

/-! ## Theorems for C9 and C10 -/

theorem callPy_arity_mismatch (params : List String) (args : List PyVal)
    (body : List PyVal → Except PyError PyVal)
    (h : args.length ≠ params.length) :
    callPy params args body = .error .typeError := by
  simp [callPy, h]

theorem cachedCall_fst {α β : Type} [DecidableEq α] (cache : List (α × β))
    (f : α → β) (a : α) (h : CacheOk cache f) :
    (cachedCall cache f a).1 = f a := by
  unfold cachedCall
  cases hcase : alookup cache a with
  | none => simp [hcase]
  | some v =>
      simp only [hcase]
      exact h a v (alookup_mem hcase)

theorem cachedCall_cacheOk {α β : Type} [DecidableEq α] (cache : List (α × β))
    (f : α → β) (a : α) (h : CacheOk cache f) :
    CacheOk (cachedCall cache f a).2 f := by
  unfold cachedCall
  cases hcase : alookup cache a with
  | none =>
      simp only [hcase]
      intro x y hxy
      rcases List.mem_cons.mp hxy with h1 | h1
      · simp only [Prod.mk.injEq] at h1
        rw [h1.1, h1.2]
      · exact h x y h1
  | some v =>
      simpa only [hcase] using h

/-- Claim C9: for every Graph (NX- or RX-backed) and every node and field
argument, `Graph.lookup(node, field)` raises TypeError and never returns a
value, because it forwards two positional arguments to `node_data`, which
declares a single parameter `node_id`. -/
theorem lookup_always_raises_typeError (g : PGraph) (node field : PyVal) :
    g.lookup node field = .error .typeError := by
  unfold PGraph.lookup PGraph.node_data
  apply callPy_arity_mismatch
  simp [node_data_params]

/-- Claim C10: on every FrozenGraph, accessing any of the eight mutation
methods raises RuntimeError; any attribute that is neither found on the
FrozenGraph object itself nor blocked is delegated to the frozen copy of
the wrapped graph; and the memoized neighbors, degree and lookup methods
return exactly the values of the wrapped graph, with the cache staying
coherent across calls. -/
theorem frozenGraph_blocks_mutation_and_memoizes (fg : FrozenGraph)
    (name : String) (cn : List (Nat × List Nat)) (cd : List (Nat × Nat))
    (cl : List ((Nat × String) × Except PyError PyVal))
    (n : Nat) (nf : Nat × String)
    (hn : CacheOk cn fg.neighborsRaw) (hd : CacheOk cd fg.degreeRaw)
    (hl : CacheOk cl fg.lookupRaw) :
    (∀ m ∈ frozen_blocked_methods,
        fg.getattribute m = .error .runtimeError) ∧
    (name ∉ frozen_own_attrs → name ∉ frozen_blocked_methods →
        fg.getattribute name = .ok (.delegated name)) ∧
    (cachedCall cn fg.neighborsRaw n).1 = fg.graph.neighbors n ∧
    (cachedCall cd fg.degreeRaw n).1 = fg.graph.degree n ∧
    (cachedCall cl fg.lookupRaw nf).1 = fg.graph.lookupField nf.1 nf.2 ∧
    CacheOk (cachedCall cn fg.neighborsRaw n).2 fg.neighborsRaw := by
  refine ⟨?_, ?_, ?_, ?_, ?_, ?_⟩
  · intro m hm
    have hown : m ∉ frozen_own_attrs := by
      fin_cases hm <;> decide
    simp [FrozenGraph.getattribute, hown, hm]
  · intro h1 h2
    simp [FrozenGraph.getattribute, h1, h2]
  · exact cachedCall_fst cn fg.neighborsRaw n hn
  · exact cachedCall_fst cd fg.degreeRaw n hd
  · exact cachedCall_fst cl fg.lookupRaw nf hl
  · exact cachedCall_cacheOk cn fg.neighborsRaw n hn

/-- Witness for C10 at a concrete frozen two-node graph with empty and
non-empty caches. -/
theorem frozenGraph_blocks_mutation_and_memoizes_witness :
    (FrozenGraph.init
        { nodes := [0, 1], edges := [(0, 1)],
          data := [(0, [("pop", PyVal.int 1)])] }).getattribute "add_node" =
      .error .runtimeError := by
  have h := frozenGraph_blocks_mutation_and_memoizes
    (FrozenGraph.init
      { nodes := [0, 1], edges := [(0, 1)],
        data := [(0, [("pop", PyVal.int 1)])] })
    "attrs" [] [] [] 0 (0, "pop")
    (by intro a b hab; cases hab)
    (by intro a b hab; cases hab)
    (by intro a b hab; cases hab)
  exact h.1 "add_node" (by decide)

/-! ## Basic reachability lemmas -/

theorem FinGraph.adj_symm {g : FinGraph} {u v : Nat} (h : g.adj u v) :
    g.adj v u := h.elim Or.inr Or.inl

theorem ReachIn.mem_left {g : FinGraph} {S : List Nat} {a b : Nat}
    (h : ReachIn g S a b) : a ∈ S := by
  induction h with
  | refl ha => exact ha
  | tail b c h1 h2 h3 ih => exact ih

theorem ReachIn.mem_right {g : FinGraph} {S : List Nat} {a b : Nat}
    (h : ReachIn g S a b) : b ∈ S := by
  induction h with
  | refl ha => exact ha
  | tail b c h1 h2 h3 ih => exact h3

theorem ReachIn.trans {g : FinGraph} {S : List Nat} {a b c : Nat}
    (h1 : ReachIn g S a b) (h2 : ReachIn g S b c) : ReachIn g S a c := by
  induction h2 with
  | refl hx => exact h1
  | tail y z hr hadj hz ih => exact .tail a y z ih hadj hz

theorem ReachIn.symm {g : FinGraph} {S : List Nat} {a b : Nat}
    (h : ReachIn g S a b) : ReachIn g S b a := by
  induction h with
  | refl ha => exact .refl a ha
  | tail b c hab hadj hc ih =>
      exact ReachIn.trans (.tail c c b (.refl c hc) hadj.symm hab.mem_right) ih

theorem ReachIn.mono {g : FinGraph} {S T : List Nat} {a b : Nat}
    (hST : ∀ x ∈ S, x ∈ T) (h : ReachIn g S a b) : ReachIn g T a b := by
  induction h with
  | refl ha => exact .refl a (hST a ha)
  | tail b c hr hadj hc ih => exact .tail a b c ih hadj (hST c hc)

theorem ReachIn.mem_congr {g : FinGraph} {S T : List Nat} {a b : Nat}
    (hST : ∀ x, x ∈ S ↔ x ∈ T) (h : ReachIn g S a b) : ReachIn g T a b :=
  h.mono (fun x hx => (hST x).mp hx)

theorem ConnSet.congr_mem {g : FinGraph} {S T : List Nat}
    (hST : ∀ x, x ∈ S ↔ x ∈ T) (h : ConnSet g S) : ConnSet g T := by
  intro a ha b hb
  exact ((h a ((hST a).mpr ha) b ((hST b).mpr hb)).mem_congr hST)

/-! ## Structure of rooted trees -/

theorem RTree.rootId_mem (t : RTree) : t.rootId ∈ nodesT t := by
  cases t with
  | node i f => simp [nodesT, RTree.rootId]

theorem edgesT_node (i : Nat) (f : RForest) :
    edgesT (.node i f) = edgesF f i := rfl

theorem edgesF_nil (p : Nat) : edgesF .nil p = [] := rfl

theorem edgesF_cons (t : RTree) (f : RForest) (p : Nat) :
    edgesF (.cons t f) p = (t.rootId, p) :: (edgesT t ++ edgesF f p) := by
  simp [edgesF, candF, edgesT]

mutual

theorem nodesT_length (t : RTree) :
    (nodesT t).length = (candT t).length + 1 := by
  cases t with
  | node i f => simp [nodesT, candT, nodesF_length f i]

theorem nodesF_length (f : RForest) (p : Nat) :
    (nodesF f).length = (candF f p).length := by
  cases f with
  | nil => simp [nodesF, candF]
  | cons t f2 =>
      simp [nodesF, candF, nodesT_length t, nodesF_length f2 p]
      omega

end

mutual

theorem candT_roots (t : RTree) :
    (candT t).map (fun cp => cp.1.rootId) = nodesF t.forest := by
  cases t with
  | node i f => simpa [candT, RTree.forest] using candF_roots f i

theorem candF_roots (f : RForest) (p : Nat) :
    (candF f p).map (fun cp => cp.1.rootId) = nodesF f := by
  cases f with
  | nil => simp [candF, nodesF]
  | cons t f2 =>
      cases t with
      | node i fi =>
          simpa [candF, nodesF, nodesT, RTree.rootId, candT]
            using congrArg₂ List.append (candF_roots fi i) (candF_roots f2 p)

end

mutual

theorem popT_eq_popSum (pop : Nat → ℚ) (t : RTree) :
    popT pop t = popSum pop (nodesT t) := by
  cases t with
  | node i f => simp [popT, nodesT, popSum, popF_eq_popSum pop f]

theorem popF_eq_popSum (pop : Nat → ℚ) (f : RForest) :
    popF pop f = popSum pop (nodesF f) := by
  cases f with
  | nil => simp [popF, nodesF, popSum]
  | cons t f2 =>
      simp [popF, nodesF, popSum, popT_eq_popSum pop t, popF_eq_popSum pop f2]

end

theorem popSum_unit (l : List Nat) :
    popSum (fun _ => (1 : ℚ)) l = l.length := by
  simp [popSum, List.map_const, List.sum_replicate, nsmul_eq_mul]

theorem popSum_append (pop : Nat → ℚ) (l m : List Nat) :
    popSum pop (l ++ m) = popSum pop l + popSum pop m := by
  simp [popSum]

theorem popSum_perm (pop : Nat → ℚ) {l m : List Nat} (h : l.Perm m) :
    popSum pop l = popSum pop m :=
  List.Perm.sum_eq (h.map pop)

mutual

theorem candT_nodes_sub (t : RTree) {c : RTree} {p : Nat}
    (h : (c, p) ∈ candT t) : ∀ x ∈ nodesT c, x ∈ nodesF t.forest := by
  cases t with
  | node i f => exact candF_nodes_sub f i (by simpa [candT] using h)

theorem candF_nodes_sub (f : RForest) (p0 : Nat) {c : RTree} {p : Nat}
    (h : (c, p) ∈ candF f p0) : ∀ x ∈ nodesT c, x ∈ nodesF f := by
  cases f with
  | nil => simp [candF] at h
  | cons t f2 =>
      simp only [candF, List.mem_cons, List.mem_append] at h
      intro x hx
      rcases h with h | h | h
      · cases h
        simp [nodesF, hx]
      · have := candT_nodes_sub t h x hx
        cases t with
        | node i fi =>
            simp only [RTree.forest] at this
            simp [nodesF, nodesT, this]
      · simp [nodesF, candF_nodes_sub f2 p0 h x hx]

end

mutual

theorem candT_decomp (t : RTree) {c : RTree} {p : Nat}
    (h : (c, p) ∈ candT t) :
    ∃ rest, (nodesT t).Perm (nodesT c ++ rest) := by
  cases t with
  | node i f =>
      obtain ⟨rest, hr⟩ := candF_decomp f i (by simpa [candT] using h)
      refine ⟨i :: rest, ?_⟩
      have h1 : nodesT (.node i f) = i :: nodesF f := by simp [nodesT]
      have h2 : (i :: nodesF f).Perm (i :: (nodesT c ++ rest)) := hr.cons i
      have h3 : (nodesT c ++ (i :: rest)).Perm (i :: (nodesT c ++ rest)) :=
        List.perm_middle
      rw [h1]
      exact h2.trans h3.symm

theorem candF_decomp (f : RForest) (p0 : Nat) {c : RTree} {p : Nat}
    (h : (c, p) ∈ candF f p0) :
    ∃ rest, (nodesF f).Perm (nodesT c ++ rest) := by
  cases f with
  | nil => simp [candF] at h
  | cons t f2 =>
      simp only [candF, List.mem_cons, List.mem_append] at h
      rcases h with h | h | h
      · have hc : c = t := congrArg Prod.fst h
        refine ⟨nodesF f2, ?_⟩
        rw [hc]
        simp [nodesF]
      · obtain ⟨rest, hr⟩ := candT_decomp t h
        refine ⟨rest ++ nodesF f2, ?_⟩
        have h1 : nodesF (.cons t f2) = nodesT t ++ nodesF f2 := by simp [nodesF]
        have h2 : (nodesT t ++ nodesF f2).Perm ((nodesT c ++ rest) ++ nodesF f2) :=
          hr.append_right _
        rw [h1, ← List.append_assoc] at *
        exact h2
      · obtain ⟨rest, hr⟩ := candF_decomp f2 p0 h
        refine ⟨nodesT t ++ rest, ?_⟩
        have h1 : nodesF (.cons t f2) = nodesT t ++ nodesF f2 := by simp [nodesF]
        have h2 : (nodesT t ++ nodesF f2).Perm (nodesT t ++ (nodesT c ++ rest)) :=
          hr.append_left _
        have h3 : (nodesT t ++ (nodesT c ++ rest)).Perm
            (nodesT c ++ (nodesT t ++ rest)) := by
          rw [← List.append_assoc, ← List.append_assoc]
          exact (List.perm_append_comm).append_right rest
        rw [h1]
        exact h2.trans h3

end

theorem forest_nodes_sub (t : RTree) : ∀ x ∈ nodesF t.forest, x ∈ nodesT t := by
  cases t with
  | node i f => intro x hx; simp [nodesT, RTree.forest] at hx ⊢; right; exact hx

theorem candT_root_not_mem {t : RTree} {c : RTree} {p : Nat}
    (h : (c, p) ∈ candT t) (hnd : (nodesT t).Nodup) :
    t.rootId ∉ nodesT c := by
  cases t with
  | node i f =>
      intro hmem
      have hsub := candT_nodes_sub (.node i f) h i hmem
      simp only [RTree.forest] at hsub
      have : (i :: nodesF f).Nodup := by simpa [nodesT] using hnd
      exact (List.nodup_cons.mp this).1 hsub

theorem nodesT_nodup_of_cons {t : RTree} {f : RForest}
    (h : (nodesF (.cons t f)).Nodup) :
    (nodesT t).Nodup ∧ (nodesF f).Nodup ∧
      ∀ x ∈ nodesT t, x ∉ nodesF f := by
  have h2 : (nodesT t ++ nodesF f).Nodup := by simpa [nodesF] using h
  obtain ⟨ha, hb, hd⟩ := List.nodup_append.mp h2
  exact ⟨ha, hb, fun x hx hx2 => hd hx hx2⟩

theorem edgesOk_of_cons {g : FinGraph} {t : RTree} {f : RForest} {p : Nat}
    (h : EdgesOk g (edgesF (.cons t f) p)) :
    g.adj t.rootId p ∧ EdgesOk g (edgesT t) ∧ EdgesOk g (edgesF f p) := by
  rw [edgesF_cons] at h
  refine ⟨h (t.rootId, p) (by simp), ?_, ?_⟩
  · intro e he
    exact h e (by simp [he])
  · intro e he
    exact h e (by simp [he])

mutual

theorem reachT (g : FinGraph) (S : List Nat) (t : RTree)
    (he : EdgesOk g (edgesT t)) (hsub : ∀ x ∈ nodesT t, x ∈ S) :
    ∀ a ∈ nodesT t, ReachIn g S t.rootId a := by
  cases t with
  | node i f =>
      intro a ha
      simp only [nodesT, List.mem_cons] at ha
      rcases ha with rfl | ha
      · exact .refl a (hsub a (RTree.rootId_mem _))
      · have he2 : EdgesOk g (edgesF f i) := by rwa [edgesT_node] at he
        have hsub2 : ∀ x ∈ nodesF f, x ∈ S := fun x hx =>
          hsub x (by simp [nodesT, hx])
        have hi : i ∈ S := hsub i (by simp [nodesT])
        exact reachF g S f i he2 hsub2 hi a ha

theorem reachF (g : FinGraph) (S : List Nat) (f : RForest) (p : Nat)
    (he : EdgesOk g (edgesF f p)) (hsub : ∀ x ∈ nodesF f, x ∈ S)
    (hp : p ∈ S) : ∀ a ∈ nodesF f, ReachIn g S p a := by
  cases f with
  | nil => intro a ha; simp [nodesF] at ha
  | cons t f2 =>
      intro a ha
      obtain ⟨hadj, het, hef⟩ := edgesOk_of_cons he
      simp only [nodesF, List.mem_append] at ha
      have hroot : t.rootId ∈ S :=
        hsub t.rootId (by simp [nodesF, forest_nodes_sub]; left; exact RTree.rootId_mem t)
      have hstep : ReachIn g S p t.rootId :=
        .tail p p t.rootId (.refl p hp) hadj.symm hroot
      rcases ha with ha | ha
      · have hsubt : ∀ x ∈ nodesT t, x ∈ S := fun x hx =>
          hsub x (by simp [nodesF, hx])
        exact hstep.trans (reachT g S t het hsubt a ha)
      · have hsubf : ∀ x ∈ nodesF f2, x ∈ S := fun x hx =>
          hsub x (by simp [nodesF, hx])
        exact reachF g S f2 p hef hsubf hp a ha

end

/-- The node set of a rooted tree whose edges lie in g induces a
connected subgraph of g. -/
theorem connSet_nodesT (g : FinGraph) (t : RTree)
    (he : EdgesOk g (edgesT t)) : ConnSet g (nodesT t) := by
  intro a ha b hb
  have h1 := reachT g (nodesT t) t he (fun x hx => hx) a ha
  have h2 := reachT g (nodesT t) t he (fun x hx => hx) b hb
  exact h1.symm.trans h2

mutual

theorem compReachT (g : FinGraph) (t : RTree) {c : RTree} {p : Nat}
    (hnd : (nodesT t).Nodup) (he : EdgesOk g (edgesT t))
    (hc : (c, p) ∈ candT t) (S : List Nat)
    (hS : ∀ x, x ∈ nodesT t → x ∉ nodesT c → x ∈ S) :
    ∀ a ∈ nodesT t, a ∉ nodesT c → ReachIn g S t.rootId a := by
  cases t with
  | node i f =>
      intro a ha hac
      have hcf : (c, p) ∈ candF f i := by simpa [candT] using hc
      have hnd2 : (i :: nodesF f).Nodup := by simpa [nodesT] using hnd
      have hiS : i ∈ S := by
        refine hS i (by simp [nodesT]) ?_
        intro hmem
        exact (List.nodup_cons.mp hnd2).1 (candF_nodes_sub f i hcf i hmem)
      simp only [nodesT, List.mem_cons] at ha
      rcases ha with rfl | ha
      · exact .refl a hiS
      · have he2 : EdgesOk g (edgesF f i) := by rwa [edgesT_node] at he
        have hS2 : ∀ x, x ∈ nodesF f → x ∉ nodesT c → x ∈ S := fun x hx hxc =>
          hS x (by simp [nodesT, hx]) hxc
        exact compReachF g f i (List.nodup_cons.mp hnd2).2 he2 hcf S hS2 hiS a ha hac

theorem compReachF (g : FinGraph) (f : RForest) (p0 : Nat) {c : RTree} {p : Nat}
    (hnd : (nodesF f).Nodup) (he : EdgesOk g (edgesF f p0))
    (hc : (c, p) ∈ candF f p0) (S : List Nat)
    (hS : ∀ x, x ∈ nodesF f → x ∉ nodesT c → x ∈ S) (hp0 : p0 ∈ S) :
    ∀ a ∈ nodesF f, a ∉ nodesT c → ReachIn g S p0 a := by
  cases f with
  | nil => intro a ha; simp [nodesF] at ha
  | cons k f2 =>
      intro a ha hac
      obtain ⟨hadj, het, hef⟩ := edgesOk_of_cons he
      obtain ⟨hndk, hndf, hdisj⟩ := nodesT_nodup_of_cons hnd
      simp only [nodesF, List.mem_append] at ha
      simp only [candF, List.mem_cons, List.mem_append] at hc
      rcases hc with hc | hc | hc
      · have hck : c = k := congrArg Prod.fst hc
        rcases ha with ha | ha
        · exact absurd ha (by rw [hck] at hac; exact hac)
        · have hsubf : ∀ x ∈ nodesF f2, x ∈ S := fun x hx =>
            hS x (by simp [nodesF, hx])
              (by rw [hck]; intro hxk; exact hdisj x hxk hx)
          exact reachF g S f2 p0 hef hsubf hp0 a ha
      · have hcsubk : ∀ x ∈ nodesT c, x ∈ nodesT k := fun x hx =>
          forest_nodes_sub k x (candT_nodes_sub k hc x hx)
        have hrootk : k.rootId ∈ S :=
          hS k.rootId (by simp [nodesF]; left; exact RTree.rootId_mem k)
            (candT_root_not_mem hc hndk)
        have hstep : ReachIn g S p0 k.rootId :=
          .tail p0 p0 k.rootId (.refl p0 hp0) hadj.symm hrootk
        rcases ha with ha | ha
        · have hS2 : ∀ x, x ∈ nodesT k → x ∉ nodesT c → x ∈ S := fun x hx hxc =>
            hS x (by simp [nodesF, hx]) hxc
          exact hstep.trans (compReachT g k hndk het hc S hS2 a ha hac)
        · have hsubf : ∀ x ∈ nodesF f2, x ∈ S := fun x hx =>
            hS x (by simp [nodesF, hx])
              (fun hxc => hdisj x (hcsubk x hxc) hx)
          exact reachF g S f2 p0 hef hsubf hp0 a ha
      · have hcsubf : ∀ x ∈ nodesT c, x ∈ nodesF f2 :=
          candF_nodes_sub f2 p0 hc
        have hsubk : ∀ x ∈ nodesT k, x ∈ S := fun x hx =>
          hS x (by simp [nodesF, hx]) (fun hxc => hdisj x hx (hcsubf x hxc))
        rcases ha with ha | ha
        · have hrootk : k.rootId ∈ S := hsubk k.rootId (RTree.rootId_mem k)
          have hstep : ReachIn g S p0 k.rootId :=
            .tail p0 p0 k.rootId (.refl p0 hp0) hadj.symm hrootk
          exact hstep.trans (reachT g S k het hsubk a ha)
        · have hS2 : ∀ x, x ∈ nodesF f2 → x ∉ nodesT c → x ∈ S := fun x hx hxc =>
            hS x (by simp [nodesF, hx]) hxc
          exact compReachF g f2 p0 hndf hef hc S hS2 hp0 a ha hac

end

/-- Removing the node set of one cut candidate from a rooted tree leaves
a connected complement. -/
theorem connSet_comp (g : FinGraph) (t : RTree) {c : RTree} {p : Nat}
    (hnd : (nodesT t).Nodup) (he : EdgesOk g (edgesT t))
    (hc : (c, p) ∈ candT t) :
    ConnSet g (listDiff (nodesT t) (nodesT c)) := by
  intro a ha b hb
  simp only [listDiff, List.mem_filter, decide_eq_true_eq] at ha hb
  have hS : ∀ x, x ∈ nodesT t → x ∉ nodesT c →
      x ∈ listDiff (nodesT t) (nodesT c) := by
    intro x hx hxc
    simp [listDiff, hx, hxc]
  have h1 := compReachT g t hnd he hc _ hS a ha.1 ha.2
  have h2 := compReachT g t hnd he hc _ hS b hb.1 hb.2
  exact h1.symm.trans h2

/-! ## Correctness of the connected-components computation -/

theorem FinGraph.adjB_iff (g : FinGraph) (u v : Nat) :
    g.adjB u v = true ↔ g.adj u v := by
  simp [FinGraph.adjB, FinGraph.adj]

theorem expandOnce_super (g : FinGraph) (S : List Nat) :
    ∀ x ∈ S, x ∈ expandOnce g S := by
  intro x hx
  simp [expandOnce, hx]

theorem expandOnce_sub (g : FinGraph) (S : List Nat)
    (hS : ∀ x ∈ S, x ∈ g.nodes) : ∀ x ∈ expandOnce g S, x ∈ g.nodes := by
  intro x hx
  simp only [expandOnce, List.mem_append, List.mem_filter] at hx
  rcases hx with hx | hx
  · exact hS x hx
  · exact hx.1

theorem expandOnce_nodup (g : FinGraph) (S : List Nat) (hg : g.nodes.Nodup)
    (hS : S.Nodup) : (expandOnce g S).Nodup := by
  refine List.Nodup.append hS (hg.filter _) ?_
  intro x hxS hxF
  simp only [List.mem_filter, Bool.and_eq_true, decide_eq_true_eq] at hxF
  exact hxF.2.1 hxS

theorem expandOnce_eq_of_closed (g : FinGraph) (S : List Nat)
    (h : Closed g S) : expandOnce g S = S := by
  have hfil : g.nodes.filter
      (fun v => decide (v ∉ S) && S.any (fun u => g.adjB u v)) = [] := by
    rw [List.filter_eq_nil_iff]
    intro v hv
    simp only [Bool.and_eq_true, decide_eq_true_eq, List.any_eq_true,
      not_and, not_exists]
    intro hvS u huS
    cases hb : g.adjB u v with
    | false => simp
    | true => exact absurd (h u huS v hv ((g.adjB_iff u v).mp hb)) hvS
  unfold expandOnce
  rw [hfil]
  simp

theorem closed_of_expandOnce_eq (g : FinGraph) (S : List Nat)
    (hfix : expandOnce g S = S) : Closed g S := by
  intro u hu w hw hadj
  by_contra hwS
  have hmem : w ∈ expandOnce g S := by
    simp only [expandOnce, List.mem_append, List.mem_filter,
      Bool.and_eq_true, decide_eq_true_eq, List.any_eq_true]
    right
    exact ⟨hw, hwS, u, hu, (g.adjB_iff u w).mpr hadj⟩
  rw [hfix] at hmem
  exact hwS hmem

theorem expandIter_super (g : FinGraph) (n : Nat) (S : List Nat) :
    ∀ x ∈ S, x ∈ expandIter g n S := by
  induction n generalizing S with
  | zero => intro x hx; simpa [expandIter] using hx
  | succ m ih =>
      intro x hx
      exact ih (expandOnce g S) x (expandOnce_super g S x hx)

theorem expandIter_sub (g : FinGraph) (n : Nat) (S : List Nat)
    (hS : ∀ x ∈ S, x ∈ g.nodes) : ∀ x ∈ expandIter g n S, x ∈ g.nodes := by
  induction n generalizing S with
  | zero => intro x hx; simp only [expandIter] at hx; exact hS x hx
  | succ m ih => exact ih (expandOnce g S) (expandOnce_sub g S hS)

theorem expandIter_nodup (g : FinGraph) (n : Nat) (S : List Nat)
    (hg : g.nodes.Nodup) (hS : S.Nodup) : (expandIter g n S).Nodup := by
  induction n generalizing S with
  | zero => simpa [expandIter] using hS
  | succ m ih => exact ih (expandOnce g S) (expandOnce_nodup g S hg hS)

theorem expandIter_of_closed (g : FinGraph) (n : Nat) (S : List Nat)
    (h : Closed g S) : expandIter g n S = S := by
  induction n with
  | zero => rfl
  | succ m ih =>
      show expandIter g m (expandOnce g S) = S
      rw [expandOnce_eq_of_closed g S h]
      exact ih

theorem expandIter_closed_or_grows (g : FinGraph) (hg : g.nodes.Nodup) :
    ∀ (k : Nat) (S : List Nat), S.Nodup → (∀ x ∈ S, x ∈ g.nodes) →
      Closed g (expandIter g k S) ∨
        S.length + k ≤ (expandIter g k S).length := by
  intro k
  induction k with
  | zero => intro S h1 h2; right; simp [expandIter]
  | succ m ih =>
      intro S h1 h2
      by_cases hfix : expandOnce g S = S
      · left
        have hclosed : Closed g S := closed_of_expandOnce_eq g S hfix
        show Closed g (expandIter g m (expandOnce g S))
        rw [hfix, expandIter_of_closed g m S hclosed]
        exact hclosed
      · have hgrow : S.length + 1 ≤ (expandOnce g S).length := by
          cases hfil : g.nodes.filter
              (fun v => decide (v ∉ S) && S.any (fun u => g.adjB u v)) with
          | nil =>
              refine absurd ?_ hfix
              unfold expandOnce
              rw [hfil]
              simp
          | cons a l =>
              have hstep : expandOnce g S = S ++ a :: l := by
                unfold expandOnce
                rw [hfil]
              have hlen := congrArg List.length hstep
              simp at hlen
              omega
        rcases ih (expandOnce g S) (expandOnce_nodup g S hg h1)
            (expandOnce_sub g S h2) with hc | hlen
        · left; exact hc
        · right
          show S.length + (m + 1) ≤ (expandIter g m (expandOnce g S)).length
          omega

theorem reachClosure_closed (g : FinGraph) (hg : g.nodes.Nodup) (v : Nat)
    (hv : v ∈ g.nodes) : Closed g (reachClosure g v) := by
  rcases expandIter_closed_or_grows g hg g.nodes.length [v]
      (by simp) (by simp [hv]) with h | h
  · exact h
  · exfalso
    have hnd : (expandIter g g.nodes.length [v]).Nodup :=
      expandIter_nodup g _ _ hg (by simp)
    have hsub : ∀ x ∈ expandIter g g.nodes.length [v], x ∈ g.nodes :=
      expandIter_sub g _ _ (by simp [hv])
    have hle : (expandIter g g.nodes.length [v]).length ≤ g.nodes.length :=
      (List.subperm_of_subset hnd (fun x hx => hsub x hx)).length_le
    simp only [List.length_singleton] at h
    omega

theorem expandOnce_sound (g : FinGraph) (v : Nat) (S : List Nat)
    (hS : ∀ x ∈ S, ReachIn g g.nodes v x) :
    ∀ x ∈ expandOnce g S, ReachIn g g.nodes v x := by
  intro x hx
  simp only [expandOnce, List.mem_append, List.mem_filter,
    Bool.and_eq_true, decide_eq_true_eq, List.any_eq_true] at hx
  rcases hx with hx | ⟨hxn, _, u, huS, hadj⟩
  · exact hS x hx
  · exact .tail v u x (hS u huS) ((g.adjB_iff u x).mp hadj) hxn

theorem expandIter_sound (g : FinGraph) (v : Nat) (n : Nat) (S : List Nat)
    (hS : ∀ x ∈ S, ReachIn g g.nodes v x) :
    ∀ x ∈ expandIter g n S, ReachIn g g.nodes v x := by
  induction n generalizing S with
  | zero => intro x hx; simp only [expandIter] at hx; exact hS x hx
  | succ m ih => exact ih (expandOnce g S) (expandOnce_sound g v S hS)

theorem reachClosure_sound (g : FinGraph) (v : Nat) (hv : v ∈ g.nodes) :
    ∀ x ∈ reachClosure g v, ReachIn g g.nodes v x := by
  refine expandIter_sound g v _ [v] ?_
  intro x hx
  simp only [List.mem_singleton] at hx
  subst hx
  exact .refl x hv

theorem reachClosure_complete (g : FinGraph) (hg : g.nodes.Nodup)
    {v b : Nat} (hv : v ∈ g.nodes) (h : ReachIn g g.nodes v b) :
    b ∈ reachClosure g v := by
  induction h with
  | refl ha => exact expandIter_super g _ [v] v (by simp)
  | tail b c hr hadj hc ih =>
      exact reachClosure_closed g hg v hv b ih c hc hadj

theorem componentsCount_zero (g : FinGraph) (l cov : List Nat)
    (h : ∀ x ∈ l, x ∈ cov) : componentsCount g l cov = 0 := by
  induction l generalizing cov with
  | nil => simp [componentsCount]
  | cons v rest ih =>
      have hv : v ∈ cov := h v (by simp)
      simp only [componentsCount, if_pos hv]
      exact ih cov (fun x hx => h x (by simp [hx]))

/-- A wellformed nonempty connected graph has exactly one component. -/
theorem num_components_one (g : FinGraph) (hg : g.nodes.Nodup)
    (hne : g.nodes ≠ []) (hconn : ConnSet g g.nodes) :
    g.num_connected_components = 1 := by
  unfold FinGraph.num_connected_components
  obtain ⟨v, rest, hn⟩ := List.exists_cons_of_ne_nil hne
  have hv : v ∈ g.nodes := by rw [hn]; simp
  have hcov : ∀ x ∈ rest, x ∈ ([] : List Nat) ++ reachClosure g v := by
    intro x hx
    have hxn : x ∈ g.nodes := by rw [hn]; simp [hx]
    have hr : ReachIn g g.nodes v x := hconn v hv x hxn
    simpa using reachClosure_complete g hg hv hr
  rw [hn]
  simp only [componentsCount, List.not_mem_nil, if_neg (fun h => h)]
  rw [componentsCount_zero g rest _ hcov]

theorem connectedB_connSet (g : FinGraph) (h : g.connectedB = true) :
    ConnSet g g.nodes := by
  intro a ha b hb
  have hne : g.nodes ≠ [] := List.ne_nil_of_mem ha
  obtain ⟨v, rest, hn⟩ := List.exists_cons_of_ne_nil hne
  have hv : v ∈ g.nodes := by rw [hn]; simp
  have hhead : g.nodes.headD 0 = v := by rw [hn]; rfl
  unfold FinGraph.connectedB at h
  rw [List.all_eq_true] at h
  have h1 : ReachIn g g.nodes v a := by
    have := h a ha
    rw [hhead] at this
    exact reachClosure_sound g v hv a (by simpa using this)
  have h2 : ReachIn g g.nodes v b := by
    have := h b hb
    rw [hhead] at this
    exact reachClosure_sound g v hv b (by simpa using this)
  exact h1.symm.trans h2

/-! ## Lemmas on attaching leaves -/

theorem attachT_rootId (t : RTree) (u v : Nat) :
    (attachT t u v).rootId = t.rootId := by
  cases t with
  | node i f =>
      by_cases h : i = u <;> simp [attachT, h, RTree.rootId]

mutual

theorem attachT_of_not_mem (t : RTree) (u v : Nat) (h : u ∉ nodesT t) :
    attachT t u v = t := by
  cases t with
  | node i f =>
      simp only [nodesT, List.mem_cons, not_or] at h
      simp [attachT, h.1, Ne.symm h.1, attachF_of_not_mem f u v h.2]

theorem attachF_of_not_mem (f : RForest) (u v : Nat) (h : u ∉ nodesF f) :
    attachF f u v = f := by
  cases f with
  | nil => rfl
  | cons t f2 =>
      simp only [nodesF, List.mem_append, not_or] at h
      simp [attachF, attachT_of_not_mem t u v h.1,
        attachF_of_not_mem f2 u v h.2]

end

mutual

theorem attachT_nodes (t : RTree) (u v : Nat) (hu : u ∈ nodesT t)
    (hnd : (nodesT t).Nodup) :
    (nodesT (attachT t u v)).Perm (v :: nodesT t) := by
  cases t with
  | node i f =>
      have hnd2 := List.nodup_cons.mp (by simpa [nodesT] using hnd)
      by_cases h : i = u
      · have hnf : u ∉ nodesF f := h ▸ hnd2.1
        simp only [attachT, if_pos h, nodesT, nodesF,
          attachF_of_not_mem f u v hnf]
        exact List.Perm.swap v i (nodesF f)
      · have huf : u ∈ nodesF f := by
          simp only [nodesT, List.mem_cons] at hu
          tauto
        simp only [attachT, if_neg h, nodesT]
        exact ((attachF_nodes f u v huf hnd2.2).cons i).trans
          (List.Perm.swap v i (nodesF f))

theorem attachF_nodes (f : RForest) (u v : Nat) (hu : u ∈ nodesF f)
    (hnd : (nodesF f).Nodup) :
    (nodesF (attachF f u v)).Perm (v :: nodesF f) := by
  cases f with
  | nil => simp [nodesF] at hu
  | cons t f2 =>
      obtain ⟨hndt, hndf, hdisj⟩ := nodesT_nodup_of_cons hnd
      by_cases hut : u ∈ nodesT t
      · have hnf2 : u ∉ nodesF f2 := hdisj u hut
        simp only [attachF, nodesF, attachF_of_not_mem f2 u v hnf2]
        exact ((attachT_nodes t u v hut hndt).append_right (nodesF f2))
      · have huf2 : u ∈ nodesF f2 := by
          simp only [nodesF, List.mem_append] at hu
          tauto
        simp only [attachF, nodesF, attachT_of_not_mem t u v hut]
        have h1 := (attachF_nodes f2 u v huf2 hndf).append_left (nodesT t)
        refine h1.trans ?_
        exact List.perm_middle

end

mutual

theorem attachT_edges (t : RTree) (u v : Nat) :
    ∀ e ∈ edgesT (attachT t u v), e = (v, u) ∨ e ∈ edgesT t := by
  cases t with
  | node i f =>
      intro e he
      by_cases h : i = u
      · simp only [attachT, if_pos h, edgesT_node, edgesF_cons] at he
        simp only [List.mem_cons, List.mem_append] at he
        rcases he with he | he | he
        · left
          rw [he, h]
          rfl
        · rw [edgesF_nil] at he
          exact absurd he (List.not_mem_nil e)
        · rcases attachF_edges f i u v e he with h2 | h2
          · exact Or.inl h2
          · right
            rwa [edgesT_node]
      · simp only [attachT, if_neg h, edgesT_node] at he
        rcases attachF_edges f i u v e he with h2 | h2
        · exact Or.inl h2
        · right
          rwa [edgesT_node]

theorem attachF_edges (f : RForest) (p u v : Nat) :
    ∀ e ∈ edgesF (attachF f u v) p, e = (v, u) ∨ e ∈ edgesF f p := by
  cases f with
  | nil => intro e he; simp [attachF, edgesF, candF] at he
  | cons t f2 =>
      intro e he
      simp only [attachF, edgesF_cons, List.mem_cons, List.mem_append] at he
      rcases he with he | he | he
      · right
        rw [edgesF_cons]
        simp [he, attachT_rootId]
      · rcases attachT_edges t u v e he with h2 | h2
        · exact Or.inl h2
        · right
          rw [edgesF_cons]
          simp [h2]
      · rcases attachF_edges f2 p u v e he with h2 | h2
        · exact Or.inl h2
        · right
          rw [edgesF_cons]
          simp [h2]

end

theorem attachChain_spec (g : FinGraph) :
    ∀ (path : List Nat) (t : RTree) (anchor : Nat),
      anchor ∈ nodesT t → (nodesT t).Nodup → path.Nodup →
      (∀ x ∈ path, x ∉ nodesT t) → ChainOk g anchor path →
      EdgesOk g (edgesT t) →
      (nodesT (attachChain t anchor path)).Perm (path ++ nodesT t) ∧
        EdgesOk g (edgesT (attachChain t anchor path)) := by
  intro path
  induction path with
  | nil =>
      intro t anchor h1 h2 h3 h4 h5 h6
      exact ⟨by simp [attachChain], by simpa [attachChain] using h6⟩
  | cons x rest ih =>
      intro t anchor h1 h2 h3 h4 h5 h6
      have hxt : x ∉ nodesT t := h4 x (by simp)
      have hperm : (nodesT (attachT t anchor x)).Perm (x :: nodesT t) :=
        attachT_nodes t anchor x h1 h2
      have hnd2 : (nodesT (attachT t anchor x)).Nodup := by
        rw [hperm.nodup_iff]
        exact List.nodup_cons.mpr ⟨hxt, h2⟩
      have hx2 : x ∈ nodesT (attachT t anchor x) := by
        rw [hperm.mem_iff]
        simp
      have hrest : ∀ y ∈ rest, y ∉ nodesT (attachT t anchor x) := by
        intro y hy
        rw [hperm.mem_iff]
        simp only [List.mem_cons, not_or]
        exact ⟨fun hyx => (List.nodup_cons.mp h3).1 (hyx ▸ hy),
          h4 y (by simp [hy])⟩
      have hedges : EdgesOk g (edgesT (attachT t anchor x)) := by
        intro e he
        rcases attachT_edges t anchor x e he with h7 | h7
        · rw [h7]
          exact h5.1.symm
        · exact h6 e h7
      obtain ⟨hp, he⟩ := ih (attachT t anchor x) x hx2 hnd2
        (List.nodup_cons.mp h3).2 hrest h5.2 hedges
      refine ⟨?_, he⟩
      simp only [attachChain]
      refine hp.trans ?_
      refine (hperm.append_left rest).trans ?_
      exact List.perm_middle

/-! ## Correctness of the weighted spanning-tree sampler -/

theorem foldl_min_mem {α : Type} (f : α → ℚ) :
    ∀ (xs : List α) (b : α),
      xs.foldl (fun b y => if f y < f b then y else b) b = b ∨
        xs.foldl (fun b y => if f y < f b then y else b) b ∈ xs := by
  intro xs
  induction xs with
  | nil => intro b; left; rfl
  | cons y ys ih =>
      intro b
      rcases ih (if f y < f b then y else b) with h | h
      · rw [List.foldl_cons, h]
        by_cases hlt : f y < f b
        · right; simp [hlt]
        · left; simp [hlt]
      · right
        rw [List.foldl_cons]
        simp [h]

theorem pickMinBy_mem {α : Type} (f : α → ℚ) {l : List α} {a : α}
    (h : pickMinBy f l = some a) : a ∈ l := by
  cases l with
  | nil => cases h
  | cons x xs =>
      simp only [pickMinBy, Option.some.injEq] at h
      rcases foldl_min_mem f xs x with h2 | h2
      · rw [← h, h2]; simp
      · rw [← h]; simp [h2]

theorem pickMinBy_ne_nil {α : Type} (f : α → ℚ) {l : List α} (h : l ≠ []) :
    ∃ a, pickMinBy f l = some a := by
  cases l with
  | nil => exact absurd rfl h
  | cons x xs => exact ⟨_, rfl⟩

theorem crossingW_mem {edges : List (Nat × Nat)} {w : (Nat × Nat) → ℚ}
    {cov : List Nat} {pw : (Nat × Nat) × ℚ}
    (h : pw ∈ crossingW edges w cov) :
    pw.1.1 ∈ cov ∧ pw.1.2 ∉ cov ∧
      ((pw.1.1, pw.1.2) ∈ edges ∨ (pw.1.2, pw.1.1) ∈ edges) := by
  simp only [crossingW, List.mem_filterMap] at h
  obtain ⟨e, he, heq⟩ := h
  by_cases h1 : e.1 ∈ cov ∧ e.2 ∉ cov
  · rw [if_pos h1] at heq
    cases heq
    exact ⟨h1.1, h1.2, Or.inl he⟩
  · rw [if_neg h1] at heq
    by_cases h2 : e.2 ∈ cov ∧ e.1 ∉ cov
    · rw [if_pos h2] at heq
      cases heq
      exact ⟨h2.1, h2.2, Or.inr he⟩
    · rw [if_neg h2] at heq
      cases heq

theorem crossingW_ne_nil {edges : List (Nat × Nat)} {w : (Nat × Nat) → ℚ}
    {cov : List Nat} {p q : Nat} (hp : p ∈ cov) (hq : q ∉ cov)
    (hadj : (p, q) ∈ edges ∨ (q, p) ∈ edges) :
    crossingW edges w cov ≠ [] := by
  rcases hadj with he | he
  · have hmem : ((p, q), w (p, q)) ∈ crossingW edges w cov := by
      simp only [crossingW, List.mem_filterMap]
      exact ⟨(p, q), he, by rw [if_pos ⟨hp, hq⟩]⟩
    exact List.ne_nil_of_mem hmem
  · have hmem : ((p, q), w (q, p)) ∈ crossingW edges w cov := by
      simp only [crossingW, List.mem_filterMap]
      refine ⟨(q, p), he, ?_⟩
      have hng : ¬((q, p).1 ∈ cov ∧ (q, p).2 ∉ cov) := by
        intro hcon
        exact hq hcon.1
      rw [if_neg hng, if_pos ⟨hp, hq⟩]
    exact List.ne_nil_of_mem hmem

theorem cross_of_reach {g : FinGraph} {S V : List Nat} {a b : Nat}
    (h : ReachIn g S a b) (ha : a ∈ V) (hb : b ∉ V) :
    ∃ p q, p ∈ V ∧ q ∉ V ∧ q ∈ S ∧ g.adj p q := by
  induction h with
  | refl hx => exact absurd ha hb
  | tail x y hr hadj hy ih =>
      by_cases hx : x ∈ V
      · exact ⟨x, y, hx, hb, hy, hadj⟩
      · exact ih hx

theorem primLoop_some_spec (g : FinGraph) (hWF : g.WF) (w : (Nat × Nat) → ℚ) :
    ∀ (fuel : Nat) (t T : RTree), TreeInv g t →
      primLoop g.edges w g.nodes fuel t = some T →
      TreeInv g T ∧ (∀ x ∈ g.nodes, x ∈ nodesT T) := by
  intro fuel
  induction fuel with
  | zero =>
      intro t T hinv hrun
      simp only [primLoop] at hrun
      split at hrun
      · cases hrun
        next hall =>
          refine ⟨hinv, ?_⟩
          intro x hx
          have := List.all_eq_true.mp hall x hx
          simpa using this
      · cases hrun
  | succ fuel ih =>
      intro t T hinv hrun
      simp only [primLoop] at hrun
      split at hrun
      · cases hrun
        next hall =>
          refine ⟨hinv, ?_⟩
          intro x hx
          have := List.all_eq_true.mp hall x hx
          simpa using this
      · cases hpick : pickMinBy Prod.snd (crossingW g.edges w (nodesT t)) with
        | none => rw [hpick] at hrun; cases hrun
        | some uvq =>
            rw [hpick] at hrun
            obtain ⟨uv, q⟩ := uvq
            obtain ⟨hu, hv, hedge⟩ := crossingW_mem (pickMinBy_mem _ hpick)
            have hvnodes : uv.2 ∈ g.nodes := by
              rcases hedge with he | he
              · exact hWF.edge_snd (uv.1, uv.2) he
              · exact hWF.edge_fst (uv.2, uv.1) he
            have hperm : (nodesT (attachT t uv.1 uv.2)).Perm (uv.2 :: nodesT t) :=
              attachT_nodes t uv.1 uv.2 hu hinv.nodup
            have hinv2 : TreeInv g (attachT t uv.1 uv.2) := by
              refine ⟨?_, ?_, ?_⟩
              · rw [hperm.nodup_iff]
                exact List.nodup_cons.mpr ⟨hv, hinv.nodup⟩
              · intro x hx
                rw [hperm.mem_iff] at hx
                rcases List.mem_cons.mp hx with rfl | hx
                · exact hvnodes
                · exact hinv.sub x hx
              · intro e he
                rcases attachT_edges t uv.1 uv.2 e he with rfl | he2
                · exact FinGraph.adj_symm hedge
                · exact hinv.edgesOk e he2
            exact ih (attachT t uv.1 uv.2) T hinv2 hrun

theorem primLoop_total (g : FinGraph) (hWF : g.WF)
    (hconn : ConnSet g g.nodes) (w : (Nat × Nat) → ℚ) :
    ∀ (fuel : Nat) (t : RTree), TreeInv g t → nodesT t ≠ [] →
      g.nodes.length ≤ fuel + (nodesT t).length →
      ∃ T, primLoop g.edges w g.nodes fuel t = some T := by
  intro fuel
  induction fuel with
  | zero =>
      intro t hinv hne hlen
      have hsp : (nodesT t).Subperm g.nodes :=
        List.subperm_of_subset hinv.nodup (fun x hx => hinv.sub x hx)
      have hperm : (nodesT t).Perm g.nodes :=
        hsp.perm_of_length_le (by simpa using hlen)
      have hall : g.nodes.all (fun v => decide (v ∈ nodesT t)) = true := by
        rw [List.all_eq_true]
        intro x hx
        simpa using hperm.mem_iff.mpr hx
      exact ⟨t, by simp [primLoop, hall]⟩
  | succ fuel ih =>
      intro t hinv hne hlen
      by_cases hall : g.nodes.all (fun v => decide (v ∈ nodesT t)) = true
      · exact ⟨t, by simp [primLoop, hall]⟩
      · have hmiss : ∃ x ∈ g.nodes, x ∉ nodesT t := by
          by_contra hcon
          push_neg at hcon
          exact hall (by rw [List.all_eq_true]; intro x hx; simpa using hcon x hx)
        obtain ⟨x, hxn, hxt⟩ := hmiss
        have hroot : t.rootId ∈ nodesT t := RTree.rootId_mem t
        have hreach : ReachIn g g.nodes t.rootId x :=
          hconn t.rootId (hinv.sub _ hroot) x hxn
        obtain ⟨p, q, hpV, hqV, hqS, hadj⟩ := cross_of_reach hreach hroot hxt
        have hcne : crossingW g.edges w (nodesT t) ≠ [] :=
          crossingW_ne_nil hpV hqV hadj
        obtain ⟨⟨uv, wq⟩, hpick⟩ := pickMinBy_ne_nil Prod.snd hcne
        obtain ⟨hu, hv, hedge⟩ := crossingW_mem (pickMinBy_mem _ hpick)
        have hperm : (nodesT (attachT t uv.1 uv.2)).Perm (uv.2 :: nodesT t) :=
          attachT_nodes t uv.1 uv.2 hu hinv.nodup
        have hvnodes : uv.2 ∈ g.nodes := by
          rcases hedge with he | he
          · exact hWF.edge_snd (uv.1, uv.2) he
          · exact hWF.edge_fst (uv.2, uv.1) he
        have hinv2 : TreeInv g (attachT t uv.1 uv.2) := by
          refine ⟨?_, ?_, ?_⟩
          · rw [hperm.nodup_iff]
            exact List.nodup_cons.mpr ⟨hv, hinv.nodup⟩
          · intro y hy
            rw [hperm.mem_iff] at hy
            rcases List.mem_cons.mp hy with rfl | hy
            · exact hvnodes
            · exact hinv.sub y hy
          · intro e he
            rcases attachT_edges t uv.1 uv.2 e he with rfl | he2
            · exact FinGraph.adj_symm hedge
            · exact hinv.edgesOk e he2
        have hne2 : nodesT (attachT t uv.1 uv.2) ≠ [] := by
          intro hcon
          have := hperm.length_eq
          rw [hcon] at this
          simp at this
        have hlen2 : g.nodes.length ≤
            fuel + (nodesT (attachT t uv.1 uv.2)).length := by
          have := hperm.length_eq
          simp only [List.length_cons] at this
          omega
        obtain ⟨T, hT⟩ := ih (attachT t uv.1 uv.2) hinv2 hne2 hlen2
        refine ⟨T, ?_⟩
        simp only [primLoop]
        rw [if_neg (by simpa using hall), hpick]
        exact hT

theorem random_spanning_tree_some {g : FinGraph} (hWF : g.WF)
    {r : Rng} {T : RTree} {r2 : Rng}
    (h : random_spanning_tree g r = (some T, r2)) :
    TreeInv g T ∧ (nodesT T).Perm g.nodes := by
  unfold random_spanning_tree at h
  cases hn : g.nodes with
  | nil => rw [hn] at h; cases h
  | cons v rest =>
      rw [hn] at h
      simp only [Prod.mk.injEq] at h
      have hv : v ∈ g.nodes := by rw [hn]; simp
      have hinit : TreeInv g (.node v .nil) := by
        refine ⟨by simp [nodesT, nodesF], ?_, ?_⟩
        · intro x hx
          simp only [nodesT, nodesF, List.mem_singleton] at hx
          rw [hx]
          exact hv
        · intro e he
          rw [edgesT_node, edgesF_nil] at he
          exact absurd he (List.not_mem_nil e)
      have hrun : primLoop g.edges (weightOf (assignWeights g.edges r).1)
          g.nodes g.nodes.length (.node v .nil) = some T := by
        rw [hn]
        exact h.1
      obtain ⟨hinvT, hcov⟩ := primLoop_some_spec g hWF _ _ _ _ hinit hrun
      refine ⟨hinvT, ?_⟩
      rw [← hn]
      exact ((List.subperm_of_subset hinvT.nodup
          (fun x hx => hinvT.sub x hx)).antisymm
        (List.subperm_of_subset hWF.nodup (fun x hx => hcov x hx)))

theorem random_spanning_tree_total {g : FinGraph} (hWF : g.WF)
    (hconn : ConnSet g g.nodes) (hne : g.nodes ≠ []) (r : Rng) :
    ∃ T r2, random_spanning_tree g r = (some T, r2) := by
  unfold random_spanning_tree
  obtain ⟨v, rest, hn⟩ := List.exists_cons_of_ne_nil hne
  have hv : v ∈ g.nodes := by rw [hn]; simp
  have hinit : TreeInv g (.node v .nil) := by
    refine ⟨by simp [nodesT, nodesF], ?_, ?_⟩
    · intro x hx
      simp only [nodesT, nodesF, List.mem_singleton] at hx
      rw [hx]
      exact hv
    · intro e he
      rw [edgesT_node, edgesF_nil] at he
      exact absurd he (List.not_mem_nil e)
  obtain ⟨T, hT⟩ := primLoop_total g hWF hconn
    (weightOf (assignWeights g.edges r).1) g.nodes.length (.node v .nil)
    hinit (by simp [nodesT, nodesF]) (by simp [nodesT, nodesF])
  rw [hn]
  refine ⟨T, (assignWeights g.edges r).2, ?_⟩
  simp only [Prod.mk.injEq]
  constructor
  · rw [← hn]
    exact hT
  · trivial

/-! ## Correctness of the uniform (Wilson) spanning-tree sampler -/

theorem chainOk_pathOk {g : FinGraph} {a : Nat} {l : List Nat}
    (h : ChainOk g a l) : PathOk g l := by
  cases l with
  | nil => trivial
  | cons x r => exact h.2

theorem pathOk_dropWhile {g : FinGraph} (p : Nat → Bool) :
    ∀ {l : List Nat}, PathOk g l → PathOk g (l.dropWhile p)
  | [], _ => by simp [List.dropWhile]; trivial
  | x :: r, h => by
      rw [List.dropWhile_cons]
      by_cases hp : p x = true
      · rw [if_pos hp]
        exact pathOk_dropWhile p (chainOk_pathOk h)
      · rw [if_neg hp]
        exact h

theorem dropWhile_ne_eq_cons {l : List Nat} {w : Nat} (hw : w ∈ l) :
    ∃ rest, l.dropWhile (fun x => decide (x ≠ w)) = w :: rest := by
  induction l with
  | nil => cases hw
  | cons x r ih =>
      rw [List.dropWhile_cons]
      by_cases hxw : x = w
      · rw [if_neg (by simp [hxw])]
        exact ⟨r, by rw [hxw]⟩
      · rw [if_pos (by simp [hxw])]
        refine ih ?_
        rcases List.mem_cons.mp hw with h | h
        · exact absurd h.symm hxw
        · exact h

theorem getLast?_dropWhile_ne {w : Nat} :
    ∀ {l : List Nat}, w ∈ l →
      (l.dropWhile (fun x => decide (x ≠ w))).getLast? = l.getLast? := by
  intro l
  induction l with
  | nil => intro hw; cases hw
  | cons x r ih =>
      intro hw
      rw [List.dropWhile_cons]
      by_cases hxw : x = w
      · rw [if_neg (by simp [hxw])]
      · rw [if_pos (by simp [hxw])]
        have hwr : w ∈ r := by
          rcases List.mem_cons.mp hw with h | h
          · exact absurd h.symm hxw
          · exact h
        rw [ih hwr]
        cases r with
        | nil => cases hwr
        | cons y rr => rw [List.getLast?_cons_cons]

theorem getLast?_mem : ∀ {l : List Nat} {a : Nat},
    l.getLast? = some a → a ∈ l := by
  intro l
  induction l with
  | nil => intro a h; cases h
  | cons x r ih =>
      intro a h
      cases r with
      | nil =>
          simp only [List.getLast?_singleton, Option.some.injEq] at h
          simp [h]
      | cons y rr =>
          rw [List.getLast?_cons_cons] at h
          exact List.mem_cons_of_mem x (ih h)

theorem neighborsOf_spec {g : FinGraph} (hWF : g.WF) {u x : Nat}
    (h : x ∈ neighborsOf g.edges u) : g.adj u x ∧ x ∈ g.nodes := by
  simp only [neighborsOf, List.mem_filterMap] at h
  obtain ⟨e, he, heq⟩ := h
  by_cases h1 : e.1 = u
  · rw [if_pos h1] at heq
    cases heq
    refine ⟨Or.inl ?_, hWF.edge_snd e he⟩
    rw [← h1]
    simpa using he
  · rw [if_neg h1] at heq
    by_cases h2 : e.2 = u
    · rw [if_pos h2] at heq
      cases heq
      refine ⟨Or.inr ?_, hWF.edge_fst e he⟩
      rw [← h2]
      simpa using he
    · rw [if_neg h2] at heq
      cases heq

theorem lerw_spec (g : FinGraph) (hWF : g.WF) (treeNodes : List Nat) :
    ∀ (fuel : Nat) (path : List Nat) (r : Rng)
      (res : (Nat × List Nat) × Rng),
      lerw g.edges treeNodes fuel path r = some res →
      path.Nodup → (∀ x ∈ path, x ∉ treeNodes) →
      (∀ x ∈ path, x ∈ g.nodes) → PathOk g path → path ≠ [] →
      res.1.1 ∈ treeNodes ∧ res.1.2.Nodup ∧
        (∀ x ∈ res.1.2, x ∉ treeNodes) ∧ (∀ x ∈ res.1.2, x ∈ g.nodes) ∧
        ChainOk g res.1.1 res.1.2 ∧
        res.1.2.getLast? = path.getLast? := by
  intro fuel
  induction fuel with
  | zero =>
      intro path r res hrun
      intro _ _ _ _ _
      simp [lerw] at hrun
  | succ fuel ih =>
      intro path r res hrun hnd hdisj hsub hok hne
      cases path with
      | nil => exact absurd rfl hne
      | cons u ptail =>
          simp only [lerw] at hrun
          by_cases hlen : (neighborsOf g.edges u).length = 0
          · rw [if_pos hlen] at hrun
            cases hrun
          · rw [if_neg hlen] at hrun
            rcases hbr : (r.below (neighborsOf g.edges u).length)
              with ⟨i, r2⟩
            rw [hbr] at hrun
            simp only [] at hrun
            have hilt : i < (neighborsOf g.edges u).length := by
              have hbe : (r.next.1 % (neighborsOf g.edges u).length,
                  r.next.2) = (i, r2) := by
                rw [← hbr]
                rfl
              have hieq : i = r.next.1 % (neighborsOf g.edges u).length :=
                (congrArg Prod.fst hbe).symm
              rw [hieq]
              exact Nat.mod_lt _ (Nat.pos_of_ne_zero hlen)
            have hwmem : (neighborsOf g.edges u).getD i 0 ∈
                neighborsOf g.edges u := by
              rw [List.getD_eq_getElem (neighborsOf g.edges u) 0 hilt]
              exact List.getElem_mem hilt
            obtain ⟨hadj, hwn⟩ := neighborsOf_spec hWF hwmem
            by_cases hwT : (neighborsOf g.edges u).getD i 0 ∈ treeNodes
            · rw [if_pos hwT] at hrun
              cases hrun
              refine ⟨hwT, hnd, hdisj, hsub, ?_, rfl⟩
              exact ⟨hadj.symm, hok⟩
            · rw [if_neg hwT] at hrun
              by_cases hwp : (neighborsOf g.edges u).getD i 0 ∈ u :: ptail
              · rw [if_pos hwp] at hrun
                have hsubl : ((u :: ptail).dropWhile
                    (fun x => decide (x ≠ (neighborsOf g.edges u).getD i 0))).Sublist
                    (u :: ptail) := List.dropWhile_sublist _
                obtain ⟨rest2, hr2⟩ := dropWhile_ne_eq_cons hwp
                have hres := ih _ r2 res hrun (hsubl.nodup hnd)
                  (fun x hx => hdisj x (hsubl.mem hx))
                  (fun x hx => hsub x (hsubl.mem hx))
                  (pathOk_dropWhile _ hok)
                  (by rw [hr2]; simp)
                refine ⟨hres.1, hres.2.1, hres.2.2.1, hres.2.2.2.1,
                  hres.2.2.2.2.1, ?_⟩
                rw [hres.2.2.2.2.2]
                exact getLast?_dropWhile_ne hwp
              · rw [if_neg hwp] at hrun
                have hres := ih _ r2 res hrun
                  (List.nodup_cons.mpr ⟨hwp, hnd⟩)
                  (by intro x hx
                      rcases List.mem_cons.mp hx with rfl | hx
                      · exact hwT
                      · exact hdisj x hx)
                  (by intro x hx
                      rcases List.mem_cons.mp hx with rfl | hx
                      · exact hwn
                      · exact hsub x hx)
                  (⟨hadj.symm, hok⟩)
                  (by simp)
                refine ⟨hres.1, hres.2.1, hres.2.2.1, hres.2.2.2.1,
                  hres.2.2.2.2.1, ?_⟩
                rw [hres.2.2.2.2.2]
                rw [List.getLast?_cons_cons]

theorem wilsonLoop_spec (g : FinGraph) (hWF : g.WF) (walkFuel : Nat) :
    ∀ (todo : List Nat) (t : RTree) (r : Rng) (res : RTree × Rng),
      wilsonLoop g.edges walkFuel todo t r = some res →
      TreeInv g t → (∀ x ∈ todo, x ∈ g.nodes) →
      TreeInv g res.1 ∧ (∀ x ∈ todo, x ∈ nodesT res.1) ∧
        (∀ x ∈ nodesT t, x ∈ nodesT res.1) := by
  intro todo
  induction todo with
  | nil =>
      intro t r res hrun hinv htodo
      simp only [wilsonLoop] at hrun
      cases hrun
      exact ⟨hinv, by simp, fun x hx => hx⟩
  | cons v rest ih =>
      intro t r res hrun hinv htodo
      simp only [wilsonLoop] at hrun
      by_cases hvt : v ∈ nodesT t
      · rw [if_pos hvt] at hrun
        obtain ⟨h1, h2, h3⟩ := ih t r res hrun hinv
          (fun x hx => htodo x (by simp [hx]))
        refine ⟨h1, ?_, h3⟩
        intro x hx
        rcases List.mem_cons.mp hx with rfl | hx
        · exact h3 x hvt
        · exact h2 x hx
      · rw [if_neg hvt] at hrun
        cases hlerw : lerw g.edges (nodesT t) walkFuel [v] r with
        | none => rw [hlerw] at hrun; cases hrun
        | some wpr =>
            rw [hlerw] at hrun
            obtain ⟨⟨w, path⟩, r2⟩ := wpr
            obtain ⟨hwT, hnd2, hdisj2, hsub2, hchain, hlast⟩ :=
              lerw_spec g hWF (nodesT t) walkFuel [v] r _ hlerw
                (by simp) (by simpa using hvt)
                (by intro x hx
                    simp only [List.mem_singleton] at hx
                    rw [hx]
                    exact htodo v (by simp))
                trivial (by simp)
            obtain ⟨hperm, hedges⟩ := attachChain_spec g path t w hwT
              hinv.nodup hnd2 hdisj2 hchain hinv.edgesOk
            have hndnew : (nodesT (attachChain t w path)).Nodup := by
              rw [hperm.nodup_iff]
              exact List.nodup_append.mpr ⟨hnd2, hinv.nodup,
                fun x hx hx2 => hdisj2 x hx hx2⟩
            have hinv2 : TreeInv g (attachChain t w path) := by
              refine ⟨hndnew, ?_, hedges⟩
              intro x hx
              rw [hperm.mem_iff] at hx
              rcases List.mem_append.mp hx with hx | hx
              · exact hsub2 x hx
              · exact hinv.sub x hx
            obtain ⟨h1, h2, h3⟩ := ih (attachChain t w path) r2 res hrun hinv2
              (fun x hx => htodo x (by simp [hx]))
            refine ⟨h1, ?_, fun x hx =>
              h3 x (by rw [hperm.mem_iff]; simp [hx])⟩
            intro x hx
            rcases List.mem_cons.mp hx with rfl | hx
            · refine h3 x ?_
              rw [hperm.mem_iff]
              have hvpath : x ∈ path :=
                getLast?_mem (by rw [hlast]; rfl)
              simp [hvpath]
            · exact h2 x hx

theorem uniform_spanning_tree_some {g : FinGraph} (hWF : g.WF)
    {walkFuel : Nat} {r : Rng} {T : RTree} {r2 : Rng}
    (h : uniform_spanning_tree g walkFuel r = some (T, r2)) :
    TreeInv g T ∧ (nodesT T).Perm g.nodes := by
  unfold uniform_spanning_tree at h
  cases hn : g.nodes with
  | nil => rw [hn] at h; cases h
  | cons v rest =>
      rw [hn] at h
      have hv : v ∈ g.nodes := by rw [hn]; simp
      have hinit : TreeInv g (.node v .nil) := by
        refine ⟨by simp [nodesT, nodesF], ?_, ?_⟩
        · intro x hx
          simp only [nodesT, nodesF, List.mem_singleton] at hx
          rw [hx]
          exact hv
        · intro e he
          rw [edgesT_node, edgesF_nil] at he
          exact absurd he (List.not_mem_nil e)
      obtain ⟨hinvT, hcov, hold⟩ := wilsonLoop_spec g hWF walkFuel rest
        (.node v .nil) r (T, r2) h hinit
        (fun x hx => by rw [hn]; simp [hx])
      refine ⟨hinvT, ?_⟩
      have hnodup2 : (v :: rest).Nodup := by rw [← hn]; exact hWF.nodup
      have hsub1 : ∀ x ∈ nodesT T, x ∈ v :: rest := by
        intro x hx
        rw [← hn]
        exact hinvT.sub x hx
      have hsub2 : ∀ x ∈ v :: rest, x ∈ nodesT T := by
        intro x hx
        rcases List.mem_cons.mp hx with rfl | hx
        · exact hold x (by simp [nodesT, nodesF])
        · exact hcov x hx
      exact (List.subperm_of_subset hinvT.nodup hsub1).antisymm
        (List.subperm_of_subset hnodup2 hsub2)

/-! ## Structural lemmas about cut candidates -/

theorem alookup_of_mem_of_nodup {α β : Type} [DecidableEq α]
    {l : List (α × β)} (hnd : (l.map Prod.fst).Nodup) {k : α} {v : β}
    (hm : (k, v) ∈ l) : alookup l k = some v := by
  induction l with
  | nil => cases hm
  | cons kv rest ih =>
      obtain ⟨k0, v0⟩ := kv
      simp only [List.map_cons, List.nodup_cons] at hnd
      rcases List.mem_cons.mp hm with h | h
      · simp only [Prod.mk.injEq] at h
        rw [alookup, if_pos h.1.symm, h.2]
      · have hk : k0 ≠ k := by
          intro hcon
          refine hnd.1 ?_
          rw [hcon]
          exact List.mem_map.mpr ⟨(k, v), h, rfl⟩
        rw [alookup, if_neg hk]
        exact ih hnd.2 h

theorem nodesT_eq (t : RTree) :
    nodesT t = t.rootId :: nodesF t.forest := by
  cases t with
  | node i f => rfl

theorem candT_eq (t : RTree) : candT t = candF t.forest t.rootId := by
  cases t with
  | node i f => rfl

mutual

theorem buildT_snd (pop : Nat → ℚ) (t : RTree) :
    (buildT pop t).2 = popT pop t := by
  cases t with
  | node i f => simp [buildT, popT, buildF_snd pop f]

theorem buildF_snd (pop : Nat → ℚ) (f : RForest) :
    (buildF pop f).2 = popF pop f := by
  cases f with
  | nil => rfl
  | cons t f2 =>
      simp [buildF, popF, buildT_snd pop t, buildF_snd pop f2]

end

mutual

theorem buildT_keys (pop : Nat → ℚ) (t : RTree) :
    (buildT pop t).1.map Prod.fst = nodesT t := by
  cases t with
  | node i f => simp [buildT, nodesT, buildF_keys pop f]

theorem buildF_keys (pop : Nat → ℚ) (f : RForest) :
    (buildF pop f).1.map Prod.fst = nodesF f := by
  cases f with
  | nil => rfl
  | cons t f2 =>
      simp [buildF, nodesF, buildT_keys pop t, buildF_keys pop f2]

end

theorem buildT_head_mem (pop : Nat → ℚ) (t : RTree) :
    (t.rootId, popT pop t) ∈ (buildT pop t).1 := by
  cases t with
  | node i f =>
      simp [buildT, RTree.rootId, popT, buildF_snd pop f]

mutual

theorem buildT_cand_mem (pop : Nat → ℚ) (t : RTree) {c : RTree} {p : Nat}
    (h : (c, p) ∈ candT t) :
    (c.rootId, popT pop c) ∈ (buildT pop t).1 := by
  cases t with
  | node i f =>
      have h2 : (c, p) ∈ candF f i := by simpa [candT] using h
      simp only [buildT, List.mem_cons]
      right
      exact buildF_cand_mem pop f i h2

theorem buildF_cand_mem (pop : Nat → ℚ) (f : RForest) (p0 : Nat)
    {c : RTree} {p : Nat} (h : (c, p) ∈ candF f p0) :
    (c.rootId, popT pop c) ∈ (buildF pop f).1 := by
  cases f with
  | nil => cases h
  | cons t f2 =>
      simp only [candF, List.mem_cons, List.mem_append] at h
      simp only [buildF, List.mem_append]
      rcases h with h | h | h
      · left
        have hc : c = t := congrArg Prod.fst h
        rw [hc]
        exact buildT_head_mem pop t
      · left
        exact buildT_cand_mem pop t h
      · right
        exact buildF_cand_mem pop f2 p0 h

end

theorem tableLookup_cand (pop : Nat → ℚ) (t : RTree)
    (hnd : (nodesT t).Nodup) {c : RTree} {p : Nat}
    (h : (c, p) ∈ candT t) :
    tableLookup (buildT pop t).1 c.rootId = popT pop c := by
  have hk : ((buildT pop t).1.map Prod.fst).Nodup := by
    rw [buildT_keys]
    exact hnd
  rw [tableLookup, alookup_of_mem_of_nodup hk (buildT_cand_mem pop t h)]

mutual

theorem cand_trans (t : RTree) {c c2 : RTree} {p p2 : Nat}
    (h1 : (c, p) ∈ candT t) (h2 : (c2, p2) ∈ candT c) :
    (c2, p2) ∈ candT t := by
  cases t with
  | node i f =>
      have h3 : (c, p) ∈ candF f i := by simpa [candT] using h1
      simpa [candT] using cand_transF f i h3 h2

theorem cand_transF (f : RForest) (p0 : Nat) {c c2 : RTree} {p p2 : Nat}
    (h1 : (c, p) ∈ candF f p0) (h2 : (c2, p2) ∈ candT c) :
    (c2, p2) ∈ candF f p0 := by
  cases f with
  | nil => cases h1
  | cons t f2 =>
      simp only [candF, List.mem_cons, List.mem_append] at h1 ⊢
      rcases h1 with h | h | h
      · have hc : c = t := congrArg Prod.fst h
        right; left
        rw [← hc]
        exact h2
      · right; left
        exact cand_trans t h h2
      · right; right
        exact cand_transF f2 p0 h h2

end

theorem child_candF (f : RForest) (p : Nat) {k : RTree}
    (h : k ∈ asList f) : (k, p) ∈ candF f p := by
  cases f with
  | nil => cases h
  | cons t f2 =>
      simp only [asList, List.mem_cons] at h
      simp only [candF, List.mem_cons, List.mem_append]
      rcases h with rfl | h
      · left; rfl
      · right; right
        exact child_candF f2 p h

theorem child_cand_ofT (t : RTree) {c : RTree} {p : Nat}
    (h : (c, p) ∈ candT t) {k : RTree} (hk : k ∈ asList c.forest) :
    (k, c.rootId) ∈ candT t := by
  refine cand_trans t h ?_
  rw [candT_eq]
  exact child_candF c.forest c.rootId hk

theorem child_cand_root (t : RTree) {k : RTree}
    (hk : k ∈ asList t.forest) : (k, t.rootId) ∈ candT t := by
  rw [candT_eq]
  exact child_candF t.forest t.rootId hk

theorem asList_nodes (f : RForest) (x : Nat) :
    x ∈ nodesF f ↔ ∃ k ∈ asList f, x ∈ nodesT k := by
  cases f with
  | nil => simp [nodesF, asList]
  | cons t f2 =>
      simp only [nodesF, asList, List.mem_append, List.mem_cons,
        asList_nodes f2 x]
      constructor
      · rintro (h | ⟨k, hk, hx⟩)
        · exact ⟨t, Or.inl rfl, h⟩
        · exact ⟨k, Or.inr hk, hx⟩
      · rintro ⟨k, rfl | hk, hx⟩
        · exact Or.inl hx
        · exact Or.inr ⟨k, hk, hx⟩

theorem popF_asList (pop : Nat → ℚ) (f : RForest) :
    popF pop f = ((asList f).map (popT pop)).sum := by
  cases f with
  | nil => rfl
  | cons t f2 => simp [popF, asList, popF_asList pop f2]

theorem asList_roots_nodup : ∀ {f : RForest}, (nodesF f).Nodup →
    ((asList f).map RTree.rootId).Nodup := by
  intro f
  cases f with
  | nil => intro hnd; simp [asList]
  | cons t f2 =>
      intro hnd
      obtain ⟨hndt, hndf, hdisj⟩ := nodesT_nodup_of_cons hnd
      simp only [asList, List.map_cons, List.nodup_cons]
      refine ⟨?_, asList_roots_nodup hndf⟩
      intro hcon
      obtain ⟨k, hk, hkroot⟩ := List.mem_map.mp hcon
      have h1 : t.rootId ∈ nodesF f2 := by
        rw [asList_nodes]
        exact ⟨k, hk, hkroot ▸ RTree.rootId_mem k⟩
      exact hdisj t.rootId (RTree.rootId_mem t) h1

theorem cand_nodes_nodup (t : RTree) (hnd : (nodesT t).Nodup)
    {c : RTree} {p : Nat} (h : (c, p) ∈ candT t) :
    (nodesT c).Nodup := by
  obtain ⟨rest, hperm⟩ := candT_decomp t h
  have := hperm.nodup_iff.mp hnd
  exact (List.nodup_append.mp this).1

theorem cand_roots_eq_forest (t : RTree) :
    (candT t).map (fun cp => cp.1.rootId) = nodesF t.forest :=
  candT_roots t

theorem cand_roots_nodup (t : RTree) (hnd : (nodesT t).Nodup) :
    ((candT t).map (fun cp => cp.1.rootId)).Nodup := by
  rw [cand_roots_eq_forest]
  rw [nodesT_eq] at hnd
  exact (List.nodup_cons.mp hnd).2

theorem cand_root_ne_root (t : RTree) (hnd : (nodesT t).Nodup)
    {c : RTree} {p : Nat} (h : (c, p) ∈ candT t) :
    c.rootId ≠ t.rootId := by
  intro hcon
  rw [nodesT_eq] at hnd
  refine (List.nodup_cons.mp hnd).1 ?_
  rw [← cand_roots_eq_forest, ← hcon]
  exact List.mem_map.mpr ⟨(c, p), h, rfl⟩

theorem cand_root_mem_forest (t : RTree) {c : RTree} {p : Nat}
    (h : (c, p) ∈ candT t) : c.rootId ∈ nodesF t.forest := by
  rw [← cand_roots_eq_forest]
  exact List.mem_map.mpr ⟨(c, p), h, rfl⟩

theorem cand_inj (t : RTree) (hnd : (nodesT t).Nodup)
    {c1 c2 : RTree} {p1 p2 : Nat} (h1 : (c1, p1) ∈ candT t)
    (h2 : (c2, p2) ∈ candT t) (hroot : c1.rootId = c2.rootId) :
    c1 = c2 ∧ p1 = p2 := by
  have := List.inj_on_of_nodup_map (cand_roots_nodup t hnd) h1 h2 hroot
  exact ⟨congrArg Prod.fst this, congrArg Prod.snd this⟩

theorem edgesT_keys (t : RTree) :
    (edgesT t).map Prod.fst = (candT t).map (fun cp => cp.1.rootId) := by
  simp [edgesT, List.map_map]

theorem alookup_edgesT (t : RTree) (hnd : (nodesT t).Nodup)
    {c : RTree} {p : Nat} (h : (c, p) ∈ candT t) :
    alookup (edgesT t) c.rootId = some p := by
  refine alookup_of_mem_of_nodup ?_ ?_
  · rw [edgesT_keys]
    exact cand_roots_nodup t hnd
  · exact List.mem_map.mpr ⟨(c, p), h, rfl⟩

theorem exists_cand_of_mem (t : RTree) {x : Nat} (hx : x ∈ nodesT t)
    (hne : x ≠ t.rootId) : ∃ c p, (c, p) ∈ candT t ∧ c.rootId = x := by
  rw [nodesT_eq] at hx
  rcases List.mem_cons.mp hx with h | h
  · exact absurd h hne
  · rw [← cand_roots_eq_forest] at h
    obtain ⟨cp, hcp, hroot⟩ := List.mem_map.mp h
    exact ⟨cp.1, cp.2, hcp, hroot⟩

mutual

theorem cand_parentT (t : RTree) {c : RTree} {p : Nat}
    (h : (c, p) ∈ candT t) :
    (p = t.rootId ∧ c ∈ asList t.forest) ∨
      (∃ cp q, (cp, q) ∈ candT t ∧ cp.rootId = p ∧ c ∈ asList cp.forest) := by
  cases t with
  | node i f =>
      have h2 : (c, p) ∈ candF f i := by simpa [candT] using h
      rcases cand_parentF f i h2 with h3 | ⟨cp, q, hcp, hr, hmem⟩
      · left
        simpa [RTree.rootId, RTree.forest] using h3
      · right
        exact ⟨cp, q, by simpa [candT] using hcp, hr, hmem⟩

theorem cand_parentF (f : RForest) (p0 : Nat) {c : RTree} {p : Nat}
    (h : (c, p) ∈ candF f p0) :
    (p = p0 ∧ c ∈ asList f) ∨
      (∃ cp q, (cp, q) ∈ candF f p0 ∧ cp.rootId = p ∧
        c ∈ asList cp.forest) := by
  cases f with
  | nil => cases h
  | cons t f2 =>
      simp only [candF, List.mem_cons, List.mem_append] at h
      rcases h with h | h | h
      · left
        have hc : c = t := congrArg Prod.fst h
        have hp : p = p0 := congrArg Prod.snd h
        exact ⟨hp, by rw [hc]; simp [asList]⟩
      · rcases cand_parentT t h with ⟨hp, hmem⟩ | ⟨cp, q, hcp, hr, hmem⟩
        · right
          refine ⟨t, p0, ?_, hp.symm ▸ rfl, hmem⟩
          simp [candF]
        · right
          refine ⟨cp, q, ?_, hr, hmem⟩
          simp only [candF, List.mem_cons, List.mem_append]
          right; left
          exact hcp
      · rcases cand_parentF f2 p0 h with ⟨hp, hmem⟩ | ⟨cp, q, hcp, hr, hmem⟩
        · left
          exact ⟨hp, by simp [asList, hmem]⟩
        · right
          refine ⟨cp, q, ?_, hr, hmem⟩
          simp only [candF, List.mem_cons, List.mem_append]
          right; right
          exact hcp

end

/-! ## The memoized finder computes the canonical balanced cut set -/

theorem popT_node_eq (pop : Nat → ℚ) (t : RTree) :
    popT pop t = pop t.rootId + popF pop t.forest := by
  cases t with
  | node i f => rfl

theorem memo_eq_canonical (pg : PopulatedGraph) (os : Bool)
    (hnd : (nodesT pg.tree).Nodup) :
    find_balanced_edge_cuts_memoization pg os =
      (candT pg.tree).filterMap (fun cp =>
        if balancedB pg.ideal_pop pg.epsilon (popT pg.population pg.tree) os
            (popT pg.population cp.1) then
          some { edge := (cp.1.rootId, cp.2), subset := nodesT cp.1,
                 subset_pop := popT pg.population cp.1 }
        else Option.none) := by
  unfold find_balanced_edge_cuts_memoization
  rw [buildT_snd]
  refine List.filterMap_congr ?_
  intro cp hcp
  have hmem : (cp.1, cp.2) ∈ candT pg.tree := by
    rw [Prod.mk.eta]
    exact hcp
  rw [tableLookup_cand pg.population pg.tree hnd hmem]

/-! ## The contraction finder computes the same cut set -/

theorem sum_ind_erase (pop : Nat → ℚ) (live : List Nat)
    (hlnd : live.Nodup) :
    ∀ (ks : List RTree), (ks.map RTree.rootId).Nodup →
      ∀ {k0 : RTree}, k0 ∈ ks → k0.rootId ∈ live →
      ((ks.map (fun k => if k.rootId ∈ live.erase k0.rootId then 0
          else popT pop k)).sum) =
        ((ks.map (fun k => if k.rootId ∈ live then 0
          else popT pop k)).sum) + popT pop k0 := by
  intro ks
  induction ks with
  | nil => intro _ k0 h; cases h
  | cons k ks2 ih =>
      intro hroots k0 hk0 hlive
      simp only [List.map_cons, List.nodup_cons] at hroots
      by_cases hk : k.rootId = k0.rootId
      · have hkeq : k0 = k := by
          rcases List.mem_cons.mp hk0 with h | h
          · exact h
          · exact absurd (List.mem_map.mpr ⟨k0, h, hk.symm⟩) hroots.1
        have hhead1 : (if k.rootId ∈ live.erase k0.rootId then (0 : ℚ)
            else popT pop k) = popT pop k := by
          rw [if_neg]
          intro hcon
          exact ((hlnd.mem_erase_iff).mp hcon).1 hk
        have hhead2 : (if k.rootId ∈ live then (0 : ℚ)
            else popT pop k) = 0 := by
          rw [if_pos]
          rw [hk]
          exact hlive
        have htail : ks2.map (fun k2 => if k2.rootId ∈ live.erase k0.rootId
            then (0 : ℚ) else popT pop k2) =
            ks2.map (fun k2 => if k2.rootId ∈ live then (0 : ℚ)
            else popT pop k2) := by
          refine List.map_congr_left ?_
          intro k2 hk2
          have hne : k2.rootId ≠ k0.rootId := by
            intro hcon
            refine hroots.1 ?_
            rw [hk, ← hcon]
            exact List.mem_map.mpr ⟨k2, hk2, rfl⟩
          by_cases hmem : k2.rootId ∈ live
          · rw [if_pos ((List.mem_erase_of_ne hne).mpr hmem), if_pos hmem]
          · rw [if_neg (fun hcon => hmem (List.mem_of_mem_erase hcon)),
              if_neg hmem]
        simp only [List.map_cons, List.sum_cons, hhead1, hhead2, htail]
        rw [← hkeq]
        ring
      · have hk0tail : k0 ∈ ks2 := by
          rcases List.mem_cons.mp hk0 with h | h
          · exact absurd (congrArg RTree.rootId h.symm) hk
          · exact h
        have hhead : (if k.rootId ∈ live.erase k0.rootId then (0 : ℚ)
            else popT pop k) = (if k.rootId ∈ live then (0 : ℚ)
            else popT pop k) := by
          by_cases hmem : k.rootId ∈ live
          · rw [if_pos ((List.mem_erase_of_ne hk).mpr hmem), if_pos hmem]
          · rw [if_neg (fun hcon => hmem (List.mem_of_mem_erase hcon)),
              if_neg hmem]
        simp only [List.map_cons, List.sum_cons, hhead,
          ih hroots.2 hk0tail hlive]
        ring

theorem isLeafB_spec {edges : List (Nat × Nat)} {live : List Nat}
    {root v : Nat} (h : isLeafB edges live root v = true) :
    v ≠ root ∧ ∀ e ∈ edges, e.2 = v → e.1 ∉ live := by
  simp only [isLeafB, Bool.and_eq_true, decide_eq_true_eq,
    List.all_eq_true] at h
  refine ⟨h.1, ?_⟩
  intro e he hev
  simpa [hev] using h.2 e he

/-- Contracting a found leaf preserves the contraction invariant and
shrinks the live set by one node. -/
theorem ctrStep_inv (t : RTree) (pop : Nat → ℚ) (check : ℚ → Bool)
    (hnd : (nodesT t).Nodup) (s : CtrState) (inv : CtrInv t pop check s)
    {v : Nat}
    (hfind : s.live.find? (fun x => isLeafB (edgesT t) s.live t.rootId x)
      = some v) :
    CtrInv t pop check (ctrStep (edgesT t) check s v) ∧
      (ctrStep (edgesT t) check s v).live.length + 1 = s.live.length := by
  have hvlive : v ∈ s.live := List.mem_of_find?_eq_some hfind
  obtain ⟨hvroot, hnochild⟩ := isLeafB_spec (List.find?_some hfind)
  have hvnode : v ∈ nodesT t := inv.live_sub v hvlive
  obtain ⟨cv, pv0, hcv, hcvroot⟩ := exists_cand_of_mem t hvnode hvroot
  have hlook : alookup (edgesT t) v = some pv0 := by
    rw [← hcvroot]
    exact alookup_edgesT t hnd hcv
  have hchildren : ∀ k ∈ asList cv.forest, k.rootId ∉ s.live := by
    intro k hk
    have hkc : (k, cv.rootId) ∈ candT t := child_cand_ofT t hcv hk
    have hke : (k.rootId, cv.rootId) ∈ edgesT t :=
      List.mem_map.mpr ⟨(k, cv.rootId), hkc, rfl⟩
    exact hnochild (k.rootId, cv.rootId) hke hcvroot
  have haccv : (s.acc v).1 = popT pop cv := by
    have h1 := inv.acc_pop cv (Or.inr ⟨pv0, hcv⟩)
      (by rw [hcvroot]; exact hvlive)
    rw [hcvroot] at h1
    have h2 : (asList cv.forest).map (fun k =>
        if k.rootId ∈ s.live then (0 : ℚ) else popT pop k) =
        (asList cv.forest).map (popT pop) := by
      refine List.map_congr_left ?_
      intro k hk
      exact if_neg (hchildren k hk)
    rw [h1, h2, popT_node_eq pop cv, popF_asList, hcvroot]
  have hstep : ctrStep (edgesT t) check s v =
      { live := s.live.erase v,
        acc := fun x =>
          if x = pv0
          then ((s.acc x).1 + (s.acc v).1, (s.acc x).2 ++ (s.acc v).2)
          else s.acc x,
        cuts :=
          if check ((s.acc v).1) then
            s.cuts ++ [{ edge := (v, pv0), subset := (s.acc v).2,
                         subset_pop := (s.acc v).1 }]
          else s.cuts } := by
    unfold ctrStep
    rw [hlook]
  have hlen : (ctrStep (edgesT t) check s v).live.length + 1 =
      s.live.length := by
    rw [hstep]
    have h1 := List.length_erase_of_mem hvlive
    have h2 : 0 < s.live.length :=
      List.length_pos.mpr (List.ne_nil_of_mem hvlive)
    simp only [h1]
    omega
  refine ⟨?_, hlen⟩
  rw [hstep]
  refine ⟨?_, ?_, ?_, ?_, ?_, ?_⟩
  · intro x hx
    exact inv.live_sub x (List.mem_of_mem_erase hx)
  · exact (List.mem_erase_of_ne (Ne.symm hvroot)).mpr inv.root_live
  · exact inv.live_nodup.erase v
  · intro c p hc hcnot y hy
    by_cases hcl : c.rootId ∈ s.live
    · have hceq : c.rootId = v := by
        by_contra hne
        exact hcnot ((List.mem_erase_of_ne hne).mpr hcl)
      have hccv : c = cv :=
        (cand_inj t hnd hc hcv (by rw [hceq, hcvroot])).1
      rw [hccv, nodesT_eq] at hy
      rcases List.mem_cons.mp hy with rfl | hy
      · rw [hcvroot]
        intro hcon
        exact ((inv.live_nodup.mem_erase_iff).mp hcon).1 rfl
      · obtain ⟨k, hk, hyk⟩ := (asList_nodes cv.forest y).mp hy
        have hkdone := hchildren k hk
        have hknot := inv.down_closed (child_cand_ofT t hcv hk) hkdone y hyk
        intro hcon
        exact hknot (List.mem_of_mem_erase hcon)
    · have := inv.down_closed hc hcl y hy
      intro hcon
      exact this (List.mem_of_mem_erase hcon)
  · intro c hcor hclive2
    dsimp only at hclive2 ⊢
    obtain ⟨hcne, hclive⟩ := (inv.live_nodup.mem_erase_iff).mp hclive2
    have hold := inv.acc_pop c hcor hclive
    by_cases hcp : c.rootId = pv0
    · have hcvchild : cv ∈ asList c.forest := by
        rcases cand_parentT t hcv with ⟨hp, hmem⟩ | ⟨cp, q, hcpq, hr, hmem⟩
        · rcases hcor with hct | ⟨pc, hpc⟩
          · rw [hct]
            exact hmem
          · exact absurd (hcp.trans hp) (cand_root_ne_root t hnd hpc)
        · rcases hcor with hct | ⟨pc, hpc⟩
          · exfalso
            refine cand_root_ne_root t hnd hcpq ?_
            rw [hr, ← hcp, hct]
          · have hceq : c = cp :=
              (cand_inj t hnd hpc hcpq (by rw [hcp, hr])).1
            rw [hceq]
            exact hmem
      have hcnodes : (nodesT c).Nodup := by
        rcases hcor with hct | ⟨pc, hpc⟩
        · rw [hct]
          exact hnd
        · exact cand_nodes_nodup t hnd hpc
      have hkroots : ((asList c.forest).map RTree.rootId).Nodup := by
        rw [nodesT_eq] at hcnodes
        exact asList_roots_nodup (List.nodup_cons.mp hcnodes).2
      have hsum := sum_ind_erase pop s.live inv.live_nodup
        (asList c.forest) hkroots hcvchild
        (by rw [hcvroot]; exact hvlive)
      rw [if_pos hcp]
      simp only []
      rw [hold, haccv]
      rw [hcvroot] at hsum
      rw [hsum]
      ring
    · rw [if_neg hcp]
      rw [hold]
      congr 1
      refine congrArg List.sum ?_
      refine List.map_congr_left ?_
      intro k hk
      have hkc : (k, c.rootId) ∈ candT t := by
        rcases hcor with hct | ⟨pc, hpc⟩
        · rw [hct] at hk ⊢
          exact child_cand_root t hk
        · exact child_cand_ofT t hpc hk
      have hkne : k.rootId ≠ v := by
        intro hcon
        exact hcp (cand_inj t hnd hkc hcv (by rw [hcon, hcvroot])).2
      by_cases hmem : k.rootId ∈ s.live
      · rw [if_pos ((List.mem_erase_of_ne hkne).mpr hmem), if_pos hmem]
      · rw [if_neg (fun hcon => hmem (List.mem_of_mem_erase hcon)),
          if_neg hmem]
  · intro e
    dsimp only
    constructor
    · rintro ⟨cut, hcut, hce⟩
      by_cases hch : check ((s.acc v).1) = true
      · rw [if_pos hch] at hcut
        rcases List.mem_append.mp hcut with hcut | hcut
        · obtain ⟨c, p, hc, he2, hnl, hck⟩ :=
            (inv.cuts_iff e).mp ⟨cut, hcut, hce⟩
          exact ⟨c, p, hc, he2, fun hcon =>
            hnl (List.mem_of_mem_erase hcon), hck⟩
        · simp only [List.mem_singleton] at hcut
          rw [hcut] at hce
          refine ⟨cv, pv0, hcv, ?_, ?_, ?_⟩
          · rw [← hce, hcvroot]
          · rw [hcvroot]
            intro hcon
            exact ((inv.live_nodup.mem_erase_iff).mp hcon).1 rfl
          · rw [← haccv]
            exact hch
      · rw [if_neg hch] at hcut
        obtain ⟨c, p, hc, he2, hnl, hck⟩ :=
          (inv.cuts_iff e).mp ⟨cut, hcut, hce⟩
        exact ⟨c, p, hc, he2, fun hcon =>
          hnl (List.mem_of_mem_erase hcon), hck⟩
    · rintro ⟨c, p, hc, he2, hnl2, hck⟩
      by_cases hcv2 : c.rootId = v
      · obtain ⟨hceq, hpeq⟩ :=
          cand_inj t hnd hc hcv (by rw [hcv2, hcvroot])
        have hch : check ((s.acc v).1) = true := by
          rw [haccv, ← hceq]
          exact hck
        rw [if_pos hch]
        refine ⟨{ edge := (v, pv0), subset := (s.acc v).2,
                  subset_pop := (s.acc v).1 }, ?_, ?_⟩
        · simp
        · rw [he2, hcv2, hpeq]
      · have hnl : c.rootId ∉ s.live := by
          intro hcon
          exact hnl2 ((List.mem_erase_of_ne hcv2).mpr hcon)
        obtain ⟨cut, hcut, hce⟩ :=
          (inv.cuts_iff e).mpr ⟨c, p, hc, he2, hnl, hck⟩
        refine ⟨cut, ?_, hce⟩
        by_cases hch : check ((s.acc v).1) = true
        · rw [if_pos hch]
          exact List.mem_append_left _ hcut
        · rw [if_neg hch]
          exact hcut

theorem ctr_init (t : RTree) (pop : Nat → ℚ) (check : ℚ → Bool)
    (hnd : (nodesT t).Nodup) :
    CtrInv t pop check
      { live := nodesT t, acc := fun v => (pop v, [v]), cuts := [] } := by
  refine ⟨fun x hx => hx, RTree.rootId_mem t, hnd, ?_, ?_, ?_⟩
  · intro c p hc hcnot y hy
    exact absurd (forest_nodes_sub t _ (cand_root_mem_forest t hc)) hcnot
  · intro c hcor hclive
    dsimp only
    have hz : (asList c.forest).map (fun k =>
        if k.rootId ∈ nodesT t then (0 : ℚ) else popT pop k) =
        (asList c.forest).map (fun _ => (0 : ℚ)) := by
      refine List.map_congr_left ?_
      intro k hk
      refine if_pos ?_
      have hkc : (k, c.rootId) ∈ candT t := by
        rcases hcor with hct | ⟨pc, hpc⟩
        · rw [hct] at hk ⊢
          exact child_cand_root t hk
        · exact child_cand_ofT t hpc hk
      exact forest_nodes_sub t _ (cand_root_mem_forest t hkc)
    rw [hz]
    simp
  · intro e
    constructor
    · rintro ⟨cut, hcut, _⟩
      cases hcut
    · rintro ⟨c, p, hc, he, hnl, hck⟩
      exact absurd (forest_nodes_sub t _ (cand_root_mem_forest t hc)) hnl

theorem sizeOf_forest_lt (c : RTree) : sizeOf c.forest < sizeOf c := by
  cases c with
  | node i f => simp [RTree.forest]

theorem sizeOf_mem_asList_lt {k : RTree} :
    ∀ {f : RForest}, k ∈ asList f → sizeOf k < sizeOf f := by
  intro f
  cases f with
  | nil => intro h; cases h
  | cons t f2 =>
      intro h
      rcases List.mem_cons.mp (by simpa [asList] using h) with rfl | h
      · simp
        omega
      · have := sizeOf_mem_asList_lt h
        simp
        omega

theorem live_leaf_ex (t : RTree) (hnd : (nodesT t).Nodup) (live : List Nat) :
    ∀ (n : Nat) (c : RTree), sizeOf c ≤ n → (∃ p, (c, p) ∈ candT t) →
      c.rootId ∈ live →
      ∃ v ∈ live, isLeafB (edgesT t) live t.rootId v = true := by
  intro n
  induction n with
  | zero =>
      intro c hsize
      exfalso
      cases c with
      | node i f => simp at hsize
  | succ n ih =>
      intro c hsize hc hcl
      by_cases hex : ∃ k ∈ asList c.forest, k.rootId ∈ live
      · obtain ⟨k, hk, hkl⟩ := hex
        obtain ⟨p, hp⟩ := hc
        refine ih k ?_ ⟨c.rootId, child_cand_ofT t hp hk⟩ hkl
        have h1 := sizeOf_mem_asList_lt hk
        have h2 := sizeOf_forest_lt c
        omega
      · obtain ⟨p, hp⟩ := hc
        refine ⟨c.rootId, hcl, ?_⟩
        simp only [isLeafB, Bool.and_eq_true, decide_eq_true_eq,
          List.all_eq_true]
        refine ⟨cand_root_ne_root t hnd hp, ?_⟩
        intro e he
        obtain ⟨⟨cx, px⟩, hcx, heq⟩ := List.mem_map.mp he
        rw [← heq]
        by_cases hpx : px = c.rootId
        · have hxchild : cx ∈ asList c.forest := by
            rcases cand_parentT t hcx with ⟨hp2, hmem⟩ |
              ⟨cp, q, hcpq, hr, hmem⟩
            · exact absurd (hpx.symm.trans hp2) (cand_root_ne_root t hnd hp)
            · have hceq : cp = c :=
                (cand_inj t hnd hcpq hp (by rw [hr, hpx])).1
              rw [← hceq]
              exact hmem
          have : cx.rootId ∉ live := by
            intro hcon
            exact hex ⟨cx, hxchild, hcon⟩
          simp [this]
        · simp [hpx]

theorem mem_len_le_one {l : List Nat} (hlen : l.length ≤ 1) {a b : Nat}
    (ha : a ∈ l) (hb : b ∈ l) : a = b := by
  cases l with
  | nil => cases ha
  | cons c r =>
      cases r with
      | nil =>
          simp only [List.mem_singleton] at ha hb
          rw [ha, hb]
      | cons d r2 => simp at hlen

theorem contractLoop_inv (t : RTree) (pop : Nat → ℚ) (check : ℚ → Bool)
    (hnd : (nodesT t).Nodup) :
    ∀ (fuel : Nat) (s : CtrState), CtrInv t pop check s →
      s.live.length ≤ fuel + 1 →
      CtrInv t pop check (contractLoop (edgesT t) t.rootId check fuel s) ∧
        ∀ x ∈ (contractLoop (edgesT t) t.rootId check fuel s).live,
          x = t.rootId := by
  intro fuel
  induction fuel with
  | zero =>
      intro s inv hlen
      refine ⟨inv, ?_⟩
      intro x hx
      exact mem_len_le_one hlen hx inv.root_live
  | succ fuel ih =>
      intro s inv hlen
      simp only [contractLoop]
      cases hfind : s.live.find?
          (fun v => isLeafB (edgesT t) s.live t.rootId v) with
      | none =>
          refine ⟨inv, ?_⟩
          intro x hx
          by_contra hne
          obtain ⟨c, p, hc, hcr⟩ :=
            exists_cand_of_mem t (inv.live_sub x hx) hne
          obtain ⟨v, hvl, hvleaf⟩ :=
            live_leaf_ex t hnd s.live (sizeOf c) c (le_refl _)
              ⟨p, hc⟩ (hcr.symm ▸ hx)
          rw [List.find?_eq_none] at hfind
          exact hfind v hvl hvleaf
      | some v =>
          obtain ⟨inv2, hlen2⟩ := ctrStep_inv t pop check hnd s inv hfind
          exact ih _ inv2 (by omega)

/-- The cut set found by the contraction search: exactly the balanced
candidate edges. -/
theorem contraction_cuts_iff (pg : PopulatedGraph) (os : Bool)
    (hnd : (nodesT pg.tree).Nodup) (e : Nat × Nat) :
    (∃ cut ∈ find_balanced_edge_cuts_contraction pg os, cut.edge = e) ↔
      ∃ c p, (c, p) ∈ candT pg.tree ∧ e = (c.rootId, p) ∧
        balancedB pg.ideal_pop pg.epsilon (popT pg.population pg.tree) os
          (popT pg.population c) = true := by
  unfold find_balanced_edge_cuts_contraction
  obtain ⟨invf, hroots⟩ := contractLoop_inv pg.tree pg.population
    (balancedB pg.ideal_pop pg.epsilon (popT pg.population pg.tree) os) hnd
    (nodesT pg.tree).length
    { live := nodesT pg.tree,
      acc := fun v => (pg.population v, [v]), cuts := [] }
    (ctr_init pg.tree pg.population _ hnd) (by simp)
  rw [invf.cuts_iff e]
  constructor
  · rintro ⟨c, p, hc, he, hnl, hck⟩
    exact ⟨c, p, hc, he, hck⟩
  · rintro ⟨c, p, hc, he, hck⟩
    refine ⟨c, p, hc, he, ?_, hck⟩
    intro hcon
    exact cand_root_ne_root pg.tree hnd hc (hroots c.rootId hcon)

/-- The cut set found by the memoized search, in the same terms. -/
theorem memo_cuts_iff (pg : PopulatedGraph) (os : Bool)
    (hnd : (nodesT pg.tree).Nodup) (e : Nat × Nat) :
    (∃ cut ∈ find_balanced_edge_cuts_memoization pg os, cut.edge = e) ↔
      ∃ c p, (c, p) ∈ candT pg.tree ∧ e = (c.rootId, p) ∧
        balancedB pg.ideal_pop pg.epsilon (popT pg.population pg.tree) os
          (popT pg.population c) = true := by
  rw [memo_eq_canonical pg os hnd]
  constructor
  · rintro ⟨cut, hcut, hce⟩
    obtain ⟨cp, hcp, heq⟩ := List.mem_filterMap.mp hcut
    by_cases hb : balancedB pg.ideal_pop pg.epsilon
        (popT pg.population pg.tree) os (popT pg.population cp.1) = true
    · rw [if_pos hb] at heq
      cases heq
      refine ⟨cp.1, cp.2, by rw [Prod.mk.eta]; exact hcp, by rw [← hce], hb⟩
    · rw [if_neg hb] at heq
      cases heq
  · rintro ⟨c, p, hc, he, hck⟩
    refine ⟨{ edge := (c.rootId, p), subset := nodesT c,
              subset_pop := popT pg.population c }, ?_, he.symm⟩
    refine List.mem_filterMap.mpr ⟨(c, p), hc, ?_⟩
    rw [if_pos hck]

/-! ## Correctness of bipartition_tree (spec sections 4.4 and 6) -/

theorem inBandB_iff_abs (t e x : ℚ) :
    inBandB t e x = true ↔ |x - t| ≤ e * t := by
  rw [abs_le]
  simp only [inBandB, Bool.and_eq_true, decide_eq_true_eq]
  constructor
  · rintro ⟨h1, h2⟩
    constructor <;> nlinarith
  · rintro ⟨h1, h2⟩
    constructor <;> nlinarith

theorem getD_mem {α : Type} {l : List α} {d : α} (hd : d ∈ l) (i : Nat) :
    l.getD i d ∈ l := by
  by_cases h : i < l.length
  · rw [List.getD_eq_getElem l d h]
    exact List.getElem_mem h
  · rw [List.getD_eq_default l d (Nat.le_of_not_lt h)]
    exact hd

theorem edgesT_sub_cand (t0 : RTree) {c0 : RTree} {p0 : Nat}
    (hc0 : (c0, p0) ∈ candT t0) : ∀ e ∈ edgesT c0, e ∈ edgesT t0 := by
  intro e he
  obtain ⟨⟨cx, px⟩, hcx, heq⟩ := List.mem_map.mp he
  exact List.mem_map.mpr ⟨(cx, px), cand_trans t0 hc0 hcx, heq⟩

theorem listDiff_cand (pop : Nat → ℚ) (t0 : RTree)
    (hnd : (nodesT t0).Nodup) {c0 : RTree} {p0 : Nat}
    (hc0 : (c0, p0) ∈ candT t0) :
    popSum pop (listDiff (nodesT t0) (nodesT c0)) =
        popT pop t0 - popT pop c0 ∧
      (listDiff (nodesT t0) (nodesT c0)).Nodup := by
  obtain ⟨rest, hpermd⟩ := candT_decomp t0 hc0
  have hnd2 : (nodesT c0 ++ rest).Nodup := hpermd.nodup_iff.mp hnd
  obtain ⟨hndc, hndr, hdisj⟩ := List.nodup_append.mp hnd2
  have hfil : (listDiff (nodesT t0) (nodesT c0)).Perm rest := by
    have h1 := hpermd.filter (fun x => decide (x ∉ nodesT c0))
    have h2 : (nodesT c0).filter (fun x => decide (x ∉ nodesT c0)) = [] := by
      rw [List.filter_eq_nil_iff]
      intro a ha
      simp [ha]
    have h3 : rest.filter (fun x => decide (x ∉ nodesT c0)) = rest := by
      rw [List.filter_eq_self]
      intro a ha
      simp only [decide_eq_true_eq]
      exact fun hcon => hdisj hcon ha
    rw [List.filter_append, h2, h3] at h1
    simpa [listDiff] using h1
  refine ⟨?_, hfil.nodup_iff.mpr hndr⟩
  have h4 : popT pop t0 = popSum pop (nodesT c0) + popSum pop rest := by
    rw [popT_eq_popSum, popSum_perm pop hpermd, popSum_append]
  rw [popSum_perm pop hfil, popT_eq_popSum pop c0, h4]
  ring

theorem cut_part_spec (g : FinGraph) (hWF : g.WF) (pop : Nat → ℚ)
    (target eps : ℚ) (os : Bool) (t0 : RTree)
    (hperm : (nodesT t0).Perm g.nodes) (hedges : EdgesOk g (edgesT t0))
    {cut : Cut}
    (hcut : cut ∈ find_balanced_edge_cuts_memoization
      { tree := t0, population := pop, ideal_pop := target,
        epsilon := eps } os) :
    ∀ part, part = (if inBandB target eps cut.subset_pop then cut.subset
        else listDiff (nodesT t0) cut.subset) →
      part.Nodup ∧ (∀ x ∈ part, x ∈ g.nodes) ∧
        |popSum pop part - target| ≤ eps * target ∧
        ConnSet g part ∧ ConnSet g (listDiff g.nodes part) := by
  intro part hpart
  have hnd : (nodesT t0).Nodup := hperm.nodup_iff.mpr hWF.nodup
  rw [memo_eq_canonical _ os hnd] at hcut
  dsimp only at hcut
  obtain ⟨⟨c0, p0⟩, hc0, heq⟩ := List.mem_filterMap.mp hcut
  dsimp only at heq
  by_cases hb : balancedB target eps (popT pop t0) os (popT pop c0) = true
  · rw [if_pos hb] at heq
    cases heq
    dsimp only at hpart
    have hcnd : (nodesT c0).Nodup := cand_nodes_nodup t0 hnd hc0
    have hcsub : ∀ x ∈ nodesT c0, x ∈ nodesT t0 := fun x hx =>
      forest_nodes_sub t0 x (candT_nodes_sub t0 hc0 x hx)
    have hcedges : EdgesOk g (edgesT c0) := fun e he =>
      hedges e (edgesT_sub_cand t0 hc0 e he)
    obtain ⟨hdiffpop, hdiffnd⟩ := listDiff_cand pop t0 hnd hc0
    have hmemt : ∀ x, x ∈ nodesT t0 ↔ x ∈ g.nodes := fun x => hperm.mem_iff
    have hconnc : ConnSet g (nodesT c0) := connSet_nodesT g c0 hcedges
    have hconnd : ConnSet g (listDiff (nodesT t0) (nodesT c0)) :=
      connSet_comp g t0 hnd hedges hc0
    by_cases hband : inBandB target eps (popT pop c0) = true
    · rw [if_pos hband] at hpart
      subst hpart
      refine ⟨hcnd, fun x hx => (hmemt x).mp (hcsub x hx), ?_, hconnc, ?_⟩
      · rw [← popT_eq_popSum]
        exact (inBandB_iff_abs target eps _).mp hband
      · refine ConnSet.congr_mem ?_ hconnd
        intro x
        simp only [listDiff, List.mem_filter, decide_eq_true_eq]
        exact and_congr_left (fun _ => hmemt x)
    · rw [if_neg hband] at hpart
      subst hpart
      rw [Bool.not_eq_true] at hband
      have hcb : inBandB target eps (popT pop t0 - popT pop c0) = true := by
        unfold balancedB at hb
        cases os with
        | true => simpa [hband] using hb
        | false => simp [hband] at hb
      refine ⟨hdiffnd, ?_, ?_, hconnd, ?_⟩
      · intro x hx
        simp only [listDiff, List.mem_filter, decide_eq_true_eq] at hx
        exact (hmemt x).mp hx.1
      · rw [hdiffpop]
        exact (inBandB_iff_abs target eps _).mp hcb
      · refine ConnSet.congr_mem ?_ hconnc
        intro x
        simp only [listDiff, List.mem_filter, decide_eq_true_eq]
        constructor
        · intro hx
          refine ⟨(hmemt x).mp (hcsub x hx), ?_⟩
          intro hcon
          exact hcon.2 hx
        · rintro ⟨hxg, hcon⟩
          by_contra hxc
          exact hcon ⟨(hmemt x).mpr hxg, hxc⟩
  · rw [if_neg hb] at heq
    cases heq

theorem bipartition_attempts_ok (g : FinGraph) (hWF : g.WF)
    (pop : Nat → ℚ) (target eps : ℚ) (os : Bool) :
    ∀ (attempts : Nat) (treeOpt : Option RTree),
      (∀ t0 ∈ treeOpt, SpanningTreeOf g t0) →
      ∀ (r : Rng) (part : List Nat) (rfin : Rng),
        bipartition_attempts g pop target eps os attempts treeOpt r =
          .ok (part, rfin) →
        part.Nodup ∧ (∀ x ∈ part, x ∈ g.nodes) ∧
          |popSum pop part - target| ≤ eps * target ∧
          ConnSet g part ∧ ConnSet g (listDiff g.nodes part) := by
  intro attempts
  induction attempts with
  | zero =>
      intro treeOpt htree r part rfin h
      simp [bipartition_attempts] at h
  | succ n ih =>
      intro treeOpt htree r part rfin h
      obtain ⟨t0, r2, hst, h2⟩ :
          ∃ t0 r2, SpanningTreeOf g t0 ∧
            bipartition_attempts g pop target eps os (n + 1) (some t0) r2 =
              .ok (part, rfin) := by
        cases treeOpt with
        | some t0 => exact ⟨t0, r, htree t0 rfl, h⟩
        | none =>
            cases hsamp : random_spanning_tree g r with
            | mk o rr =>
                cases o with
                | none =>
                    exfalso
                    have hval : bipartition_attempts g pop target eps os
                        (n + 1) Option.none r =
                        .error .structuralInvariantError := by
                      simp only [bipartition_attempts]
                      rw [hsamp]
                    rw [hval] at h
                    cases h
                | some T =>
                    obtain ⟨hinv, hpermT⟩ :=
                      random_spanning_tree_some hWF hsamp
                    refine ⟨T, rr, ⟨hpermT, hinv.edgesOk⟩, ?_⟩
                    rw [← h]
                    simp only [bipartition_attempts]
                    rw [hsamp]
      simp only [bipartition_attempts] at h2
      cases hfind : find_balanced_edge_cuts_memoization
          { tree := t0, population := pop, ideal_pop := target,
            epsilon := eps } os with
      | nil =>
          rw [hfind] at h2
          exact ih Option.none (fun t ht => absurd ht (by simp)) r2 part
            rfin h2
      | cons c rest =>
          rw [hfind] at h2
          simp only [Except.ok.injEq, Prod.mk.injEq] at h2
          obtain ⟨hp, hr⟩ := h2
          have hmem : (c :: rest).getD (r2.below (c :: rest).length).1 c ∈
              find_balanced_edge_cuts_memoization
                { tree := t0, population := pop, ideal_pop := target,
                  epsilon := eps } os := by
            rw [hfind]
            exact getD_mem (by simp) _
          exact cut_part_spec g hWF pop target eps os t0 hst.perm
            hst.edgesOk hmem part hp.symm

/-- C1: for every successful call of bipartition_tree on a well-formed
connected graph (any injected spanning tree being a spanning tree of the
graph), the returned node set has total population p with
|p - pop_target| / pop_target <= epsilon, and both the returned set and
its complement within the original graph induce connected subgraphs. -/
theorem bipartition_tree_within_epsilon_and_connected (g : FinGraph)
    (hWF : g.WF)
    (pop : Nat → ℚ) (pop_target epsilon : ℚ) (hpos : 0 < pop_target)
    (max_attempts : Nat) (r : Rng) (one_sided : Bool)
    (treeOpt : Option RTree) (htree : ∀ t0 ∈ treeOpt, SpanningTreeOf g t0)
    (part : List Nat) (rfin : Rng)
    (h : bipartition_tree g pop pop_target epsilon max_attempts r
        one_sided treeOpt = .ok (part, rfin)) :
    part.Nodup ∧ (∀ x ∈ part, x ∈ g.nodes) ∧
      |popSum pop part - pop_target| / pop_target ≤ epsilon ∧
      ConnSet g part ∧ ConnSet g (listDiff g.nodes part) := by
  obtain ⟨h1, h2, h3, h4, h5⟩ := bipartition_attempts_ok g hWF pop
    pop_target epsilon one_sided max_attempts treeOpt htree r part rfin h
  refine ⟨h1, h2, ?_, h4, h5⟩
  rw [div_le_iff₀ hpos]
  exact h3

unseal Rat.add Rat.mul Rat.sub Rat.inv Rat.ofScientific in
/-- Witness for C1: a concrete successful run on the 4-node path graph
with unit populations, target 2 and epsilon 1/2, on the injected
spanning chain rooted at 0. -/
theorem bipartition_tree_within_epsilon_and_connected_witness :
    ([2, 3] : List Nat).Nodup ∧
      (∀ x ∈ ([2, 3] : List Nat),
        x ∈ (⟨[0, 1, 2, 3], [(0, 1), (1, 2), (2, 3)]⟩ : FinGraph).nodes) ∧
      |popSum (fun _ => (1 : ℚ)) [2, 3] - 2| / 2 ≤ 1 / 2 ∧
      ConnSet ⟨[0, 1, 2, 3], [(0, 1), (1, 2), (2, 3)]⟩ [2, 3] ∧
      ConnSet ⟨[0, 1, 2, 3], [(0, 1), (1, 2), (2, 3)]⟩
        (listDiff (⟨[0, 1, 2, 3], [(0, 1), (1, 2), (2, 3)]⟩ :
          FinGraph).nodes [2, 3]) :=
  bipartition_tree_within_epsilon_and_connected
    ⟨[0, 1, 2, 3], [(0, 1), (1, 2), (2, 3)]⟩
    ⟨by decide, by decide, by decide, by decide⟩
    (fun _ => (1 : ℚ)) 2 (1 / 2) (by norm_num) 5 ⟨2018⟩ false
    (some (.node 0 (.cons (.node 1 (.cons (.node 2 (.cons (.node 3 .nil)
      .nil)) .nil)) .nil)))
    (fun t ht => by
      have ht2 : some _ = some t := ht
      rw [← Option.some.inj ht2]
      exact ⟨by decide, by decide⟩)
    [2, 3] ⟨2100717427⟩ (by decide)

/-- C2: for every populated spanning tree (with distinct node ids),
population map, ideal population and epsilon, the memoized finder and
the contraction finder return the same set of balanced-cut edges. -/
theorem finders_return_same_edge_set (pg : PopulatedGraph) (os : Bool)
    (hnd : (nodesT pg.tree).Nodup) :
    ((find_balanced_edge_cuts_memoization pg os).map Cut.edge).toFinset =
      ((find_balanced_edge_cuts_contraction pg os).map
        Cut.edge).toFinset := by
  ext e
  simp only [List.mem_toFinset, List.mem_map]
  exact (memo_cuts_iff pg os hnd e).trans
    (contraction_cuts_iff pg os hnd e).symm

/-- Witness for C2 at the nine-node test tree with unit populations,
ideal population 9/2 and epsilon 1/2. -/
theorem finders_return_same_edge_set_witness :
    (nodesT pg9.tree).Nodup ∧
      ((find_balanced_edge_cuts_memoization pg9 false).map
          Cut.edge).toFinset =
        ((find_balanced_edge_cuts_contraction pg9 false).map
          Cut.edge).toFinset :=
  ⟨by decide, finders_return_same_edge_set pg9 false (by decide)⟩


/-! ## C3: both samplers return spanning trees -/

theorem tree_graph_is_tree (g : FinGraph) (hWF : g.WF)
    (hne : g.nodes ≠ []) {T : RTree} (hperm : (nodesT T).Perm g.nodes) :
    (edgesT T).length = g.nodes.length - 1 ∧
      FinGraph.num_connected_components ⟨nodesT T, edgesT T⟩ = 1 ∧
      FinGraph.is_a_tree ⟨nodesT T, edgesT T⟩ = true := by
  have hnd : (nodesT T).Nodup := hperm.nodup_iff.mpr hWF.nodup
  have hlen : (nodesT T).length = g.nodes.length := hperm.length_eq
  have hel : (edgesT T).length = g.nodes.length - 1 := by
    have h1 := nodesT_length T
    have h2 : (edgesT T).length = (candT T).length := by simp [edgesT]
    omega
  have hek : EdgesOk ⟨nodesT T, edgesT T⟩ (edgesT T) := fun e he =>
    Or.inl he
  have hcs : ConnSet ⟨nodesT T, edgesT T⟩ (nodesT T) :=
    connSet_nodesT _ T hek
  have hneT : nodesT T ≠ [] := by
    intro hcon
    rw [hcon] at hperm
    exact hne hperm.symm.eq_nil
  have hnc : FinGraph.num_connected_components ⟨nodesT T, edgesT T⟩ = 1 :=
    num_components_one _ hnd hneT hcs
  refine ⟨hel, hnc, ?_⟩
  simp [FinGraph.is_a_tree, hel, hlen, hnc]

/-- C3: on every connected well-formed input graph the weighted sampler
always returns a spanning tree; every tree either sampler returns spans
the same node set, has exactly one fewer edge than nodes and exactly one
connected component, so is_a_tree holds of it; and is_a_tree is true of
a graph exactly when its edge count is its node count minus one and it
has a single connected component. -/
theorem samplers_return_trees (g : FinGraph) (hWF : g.WF)
    (hconn : ConnSet g g.nodes) (hne : g.nodes ≠ []) :
    (∀ r : Rng, ∃ T r2, random_spanning_tree g r = (some T, r2)) ∧
      (∀ (r r2 : Rng) (walkFuel : Nat) (T : RTree),
        (random_spanning_tree g r = (some T, r2) ∨
          uniform_spanning_tree g walkFuel r = some (T, r2)) →
        (nodesT T).Perm g.nodes ∧
          (edgesT T).length = g.nodes.length - 1 ∧
          FinGraph.num_connected_components ⟨nodesT T, edgesT T⟩ = 1 ∧
          FinGraph.is_a_tree ⟨nodesT T, edgesT T⟩ = true) ∧
      ∀ h : FinGraph, h.is_a_tree = true ↔
        (h.edges.length = h.nodes.length - 1 ∧
          h.num_connected_components = 1) := by
  refine ⟨fun r => random_spanning_tree_total hWF hconn hne r, ?_, ?_⟩
  · rintro r r2 walkFuel T (h | h)
    · obtain ⟨hinv, hperm⟩ := random_spanning_tree_some hWF h
      obtain ⟨h1, h2, h3⟩ := tree_graph_is_tree g hWF hne hperm
      exact ⟨hperm, h1, h2, h3⟩
    · obtain ⟨hinv, hperm⟩ := uniform_spanning_tree_some hWF h
      obtain ⟨h1, h2, h3⟩ := tree_graph_is_tree g hWF hne hperm
      exact ⟨hperm, h1, h2, h3⟩
  · intro h0
    unfold FinGraph.is_a_tree
    by_cases h1 : h0.edges.length = h0.nodes.length - 1
    · by_cases h2 : h0.num_connected_components = 1
      · simp [h1, h2]
      · simp [h1, h2]
    · simp [h1]

/-- Witness for C3 at the 3-node path graph. -/
theorem samplers_return_trees_witness :
    (∀ r : Rng, ∃ T r2,
      random_spanning_tree ⟨[0, 1, 2], [(0, 1), (1, 2)]⟩ r =
        (some T, r2)) ∧
      (∀ (r r2 : Rng) (walkFuel : Nat) (T : RTree),
        (random_spanning_tree ⟨[0, 1, 2], [(0, 1), (1, 2)]⟩ r =
            (some T, r2) ∨
          uniform_spanning_tree ⟨[0, 1, 2], [(0, 1), (1, 2)]⟩ walkFuel r =
            some (T, r2)) →
        (nodesT T).Perm (⟨[0, 1, 2], [(0, 1), (1, 2)]⟩ :
            FinGraph).nodes ∧
          (edgesT T).length =
            (⟨[0, 1, 2], [(0, 1), (1, 2)]⟩ : FinGraph).nodes.length - 1 ∧
          FinGraph.num_connected_components ⟨nodesT T, edgesT T⟩ = 1 ∧
          FinGraph.is_a_tree ⟨nodesT T, edgesT T⟩ = true) ∧
      ∀ h : FinGraph, h.is_a_tree = true ↔
        (h.edges.length = h.nodes.length - 1 ∧
          h.num_connected_components = 1) :=
  samplers_return_trees ⟨[0, 1, 2], [(0, 1), (1, 2)]⟩
    ⟨by decide, by decide, by decide, by decide⟩
    (connectedB_connSet _ (by decide)) (by decide)

/-! ## C4: the 3x3 grid bipartition -/

theorem tight_band_no_nat (n : Nat) :
    inBandB (9 / 2) (1 / 10) (n : ℚ) = false := by
  unfold inBandB
  rcases Nat.lt_or_ge n 5 with h | h
  · have h4 : (n : ℚ) ≤ 4 := by
      have h2 : n ≤ 4 := by omega
      exact_mod_cast h2
    have hlt : ¬ ((9 : ℚ) / 2 * (1 - 1 / 10) ≤ (n : ℚ)) := by nlinarith
    rw [decide_eq_false hlt, Bool.false_and]
  · have h5 : (5 : ℚ) ≤ (n : ℚ) := by exact_mod_cast h
    have hgt : ¬ ((n : ℚ) ≤ (9 : ℚ) / 2 * (1 + 1 / 10)) := by nlinarith
    rw [decide_eq_false hgt, Bool.and_false]

theorem tight_band_finder_nil (t0 : RTree) (hnd : (nodesT t0).Nodup) :
    find_balanced_edge_cuts_memoization
      { tree := t0, population := fun _ => 1, ideal_pop := 9 / 2,
        epsilon := 1 / 10 } false = [] := by
  rw [memo_eq_canonical _ false hnd]
  dsimp only
  rw [List.filterMap_eq_nil_iff]
  intro cp hcp
  have hx : popT (fun _ => (1 : ℚ)) cp.1 = ((nodesT cp.1).length : ℚ) := by
    rw [popT_eq_popSum, popSum_unit]
  have hb : balancedB (9 / 2) (1 / 10) (popT (fun _ => 1) t0) false
      (popT (fun _ => 1) cp.1) = false := by
    show (inBandB (9 / 2) (1 / 10) (popT (fun _ => 1) cp.1) &&
      inBandB (9 / 2) (1 / 10)
        (popT (fun _ => 1) t0 - popT (fun _ => 1) cp.1)) = false
    rw [hx, tight_band_no_nat, Bool.false_and]
  rw [hb]
  simp

theorem grid_tight_always_balance_error :
    ∀ (attempts : Nat) (treeOpt : Option RTree),
      (∀ t0 ∈ treeOpt, SpanningTreeOf grid9 t0) → ∀ r : Rng,
      bipartition_attempts grid9 (fun _ => 1) (9 / 2) (1 / 10) false
        attempts treeOpt r = .error .balanceError := by
  intro attempts
  induction attempts with
  | zero => intro treeOpt htree r; rfl
  | succ n ih =>
      intro treeOpt htree r
      obtain ⟨t0, r2, hst, hred⟩ :
          ∃ t0 r2, SpanningTreeOf grid9 t0 ∧
            bipartition_attempts grid9 (fun _ => 1) (9 / 2) (1 / 10) false
                (n + 1) treeOpt r =
              bipartition_attempts grid9 (fun _ => 1) (9 / 2) (1 / 10)
                false (n + 1) (some t0) r2 := by
        cases treeOpt with
        | some t0 => exact ⟨t0, r, htree t0 rfl, rfl⟩
        | none =>
            have hWF : grid9.WF :=
              ⟨by decide, by decide, by decide, by decide⟩
            obtain ⟨T, rT, hsamp⟩ := random_spanning_tree_total hWF
              (connectedB_connSet _ (by decide)) (by decide) r
            obtain ⟨hinv, hpermT⟩ := random_spanning_tree_some hWF hsamp
            refine ⟨T, rT, ⟨hpermT, hinv.edgesOk⟩, ?_⟩
            simp only [bipartition_attempts]
            rw [hsamp]
      rw [hred]
      have hnd : (nodesT t0).Nodup := hst.perm.nodup_iff.mpr (by decide)
      have hnil := tight_band_finder_nil t0 hnd
      simp only [bipartition_attempts]
      rw [hnil]
      exact ih Option.none (fun t ht => absurd ht (by simp)) r2

/-- C4 (amended): on the 3x3 grid with unit populations and target 9/2,
every successful bipartition_tree call with epsilon 1/2 returns a
connected subset of 3 to 6 nodes (any size whose population lies in the
acceptance band, not only 4 or 5) with connected complement, and with
epsilon 1/10 every call returns the BalanceError after exhausting its
attempts, for every attempt bound, random state and injected spanning
tree. -/
theorem grid_bipartition_band_and_tight_eps_error :
    (∀ (max_attempts : Nat) (r : Rng) (treeOpt : Option RTree),
      (∀ t0 ∈ treeOpt, SpanningTreeOf grid9 t0) →
      ∀ part rfin,
        bipartition_tree grid9 (fun _ => 1) (9 / 2) (1 / 2) max_attempts
            r false treeOpt = .ok (part, rfin) →
        3 ≤ part.length ∧ part.length ≤ 6 ∧
          ConnSet grid9 part ∧ ConnSet grid9 (listDiff grid9.nodes part)) ∧
      ∀ (max_attempts : Nat) (r : Rng) (treeOpt : Option RTree),
        (∀ t0 ∈ treeOpt, SpanningTreeOf grid9 t0) →
        bipartition_tree grid9 (fun _ => 1) (9 / 2) (1 / 10) max_attempts
          r false treeOpt = .error .balanceError := by
  constructor
  · intro max_attempts r treeOpt htree part rfin h
    have hWF : grid9.WF := ⟨by decide, by decide, by decide, by decide⟩
    obtain ⟨h1, h2, h3, h4, h5⟩ := bipartition_attempts_ok grid9 hWF
      (fun _ => 1) (9 / 2)
      (1 / 2) false max_attempts treeOpt htree r part rfin h
    rw [popSum_unit] at h3
    obtain ⟨hlo, hhi⟩ := abs_le.mp h3
    refine ⟨?_, ?_, h4, h5⟩
    · by_contra hc
      push_neg at hc
      have hcast : (part.length : ℚ) ≤ 2 := by
        have h6 : part.length ≤ 2 := by omega
        exact_mod_cast h6
      nlinarith
    · by_contra hc
      push_neg at hc
      have hcast : (7 : ℚ) ≤ (part.length : ℚ) := by exact_mod_cast hc
      nlinarith
  · intro max_attempts r treeOpt htree
    exact grid_tight_always_balance_error max_attempts treeOpt htree r

unseal Rat.add Rat.mul Rat.sub Rat.inv Rat.ofScientific in
/-- C4 counterexample: on the 3x3 grid with unit populations, target 9/2
and epsilon 1/2, a successful bipartition_tree call (on the injected
spanning path of the grid) returns the 3-node set [6, 7, 8]: the
returned set need not have 4 or 5 nodes. -/
theorem grid_bipartition_three_node_return :
    bipartition_tree grid9 (fun _ => 1) (9 / 2) (1 / 2) 3 ⟨2⟩ false
        (some path9) = .ok ([6, 7, 8], ⟨59559187⟩) ∧
      SpanningTreeOf grid9 path9 ∧
      ([6, 7, 8] : List Nat).length ≠ 4 ∧
      ([6, 7, 8] : List Nat).length ≠ 5 :=
  ⟨by decide, ⟨by decide, by decide⟩, by decide, by decide⟩

/-! ## C7: no balanced cut means both finders return the empty list -/

/-- C7: on every populated spanning tree in which no edge removal
leaves both sides inside the acceptance band, both finders return the
empty cut list (an ordinary value, not an exception). -/
theorem finders_empty_when_no_balanced_cut (pg : PopulatedGraph)
    (hnd : (nodesT pg.tree).Nodup)
    (hno : ∀ cp ∈ candT pg.tree,
      balancedB pg.ideal_pop pg.epsilon (popT pg.population pg.tree)
        false (popT pg.population cp.1) = false) :
    find_balanced_edge_cuts_memoization pg false = [] ∧
      find_balanced_edge_cuts_contraction pg false = [] := by
  constructor
  · rw [memo_eq_canonical _ false hnd]
    rw [List.filterMap_eq_nil_iff]
    intro cp hcp
    rw [hno cp hcp]
    simp
  · rw [List.eq_nil_iff_forall_not_mem]
    intro cut hcut
    have hex : ∃ c ∈ find_balanced_edge_cuts_contraction pg false,
        c.edge = cut.edge := ⟨cut, hcut, rfl⟩
    obtain ⟨c, p, hc, he, hbal⟩ := (contraction_cuts_iff pg false hnd
      cut.edge).mp hex
    rw [hno (c, p) hc] at hbal
    cases hbal

unseal Rat.add Rat.mul Rat.sub Rat.inv Rat.ofScientific in
/-- Witness for C7 at the populated path 0-1-2-3-4 with populations
4, 4, 3, 3, 3, ideal population 10 and epsilon 1/10. -/
theorem finders_empty_when_no_balanced_cut_witness :
    (nodesT pgPath.tree).Nodup ∧
      (∀ cp ∈ candT pgPath.tree,
        balancedB pgPath.ideal_pop pgPath.epsilon
          (popT pgPath.population pgPath.tree) false
          (popT pgPath.population cp.1) = false) ∧
      find_balanced_edge_cuts_memoization pgPath false = [] ∧
      find_balanced_edge_cuts_contraction pgPath false = [] :=
  ⟨by decide, by decide,
    finders_empty_when_no_balanced_cut pgPath (by decide) (by decide)⟩

/-! ## C5: recursive_tree_part -/

theorem subgraphOf_nodes (g : FinGraph) (s : List Nat) (x : Nat) :
    x ∈ (g.subgraphOf s).nodes ↔ x ∈ g.nodes ∧ x ∈ s := by
  simp [FinGraph.subgraphOf]

theorem subgraphOf_WF (g : FinGraph) (hWF : g.WF) (s : List Nat) :
    (g.subgraphOf s).WF := by
  refine ⟨hWF.nodup.filter _, ?_, ?_, ?_⟩
  · intro e he
    simp only [FinGraph.subgraphOf, List.mem_filter, Bool.and_eq_true,
      decide_eq_true_eq] at he
    exact (subgraphOf_nodes g s e.1).mpr ⟨hWF.edge_fst e he.1, he.2.1⟩
  · intro e he
    simp only [FinGraph.subgraphOf, List.mem_filter, Bool.and_eq_true,
      decide_eq_true_eq] at he
    exact (subgraphOf_nodes g s e.2).mpr ⟨hWF.edge_snd e he.1, he.2.2⟩
  · intro e he
    simp only [FinGraph.subgraphOf, List.mem_filter] at he
    exact hWF.no_self e he.1

theorem subgraphOf_nodes_perm (g : FinGraph) (hWF : g.WF) {s : List Nat}
    (hsub : ∀ x ∈ s, x ∈ g.nodes) (hnd : s.Nodup) :
    (g.subgraphOf s).nodes.Perm s := by
  refine (List.subperm_of_subset (hWF.nodup.filter _) ?_).antisymm
    (List.subperm_of_subset hnd ?_)
  · intro x hx
    exact ((subgraphOf_nodes g s x).mp hx).2
  · intro x hx
    exact (subgraphOf_nodes g s x).mpr ⟨hsub x hx, hx⟩

theorem popSum_listDiff (pop : Nat → ℚ) {l p : List Nat} (hl : l.Nodup)
    (hp : p.Nodup) (hsub : ∀ x ∈ p, x ∈ l) :
    (p ++ listDiff l p).Perm l ∧ (listDiff l p).Nodup ∧
      popSum pop (listDiff l p) = popSum pop l - popSum pop p := by
  obtain ⟨q, hq, hs⟩ := List.subperm_of_subset hp hsub
  obtain ⟨r0, hr0⟩ := hs.exists_perm_append
  have hlp : l.Perm (p ++ r0) := hr0.trans (hq.append_right r0)
  have hnd2 : (p ++ r0).Nodup := hlp.nodup_iff.mp hl
  obtain ⟨hndp, hndr, hdisj⟩ := List.nodup_append.mp hnd2
  have hfil : (listDiff l p).Perm r0 := by
    have h1 := hlp.filter (fun x => decide (x ∉ p))
    have h2 : p.filter (fun x => decide (x ∉ p)) = [] := by
      rw [List.filter_eq_nil_iff]
      intro a ha
      simp [ha]
    have h3 : r0.filter (fun x => decide (x ∉ p)) = r0 := by
      rw [List.filter_eq_self]
      intro a ha
      simp only [decide_eq_true_eq]
      exact fun hcon => hdisj hcon ha
    rw [List.filter_append, h2, h3] at h1
    simpa [listDiff] using h1
  refine ⟨(hfil.append_left p).trans hlp.symm,
    hfil.nodup_iff.mpr hndr, ?_⟩
  have h4 : popSum pop l = popSum pop p + popSum pop r0 := by
    rw [popSum_perm pop hlp, popSum_append]
  rw [popSum_perm pop hfil, h4]
  ring

theorem rtp_bounds (t eps debt : ℚ) (ht : 0 < t) (_heps0 : 0 ≤ eps)
    (heps1 : eps < 1) (hdebt : |debt| ≤ eps * t) :
    rtpMinPop t eps debt ≤ rtpMaxPop t eps debt ∧
      0 < rtpTarget t eps debt ∧
      t * (1 - eps) ≤ rtpMinPop t eps debt ∧
      rtpMaxPop t eps debt ≤ t * (1 + eps) ∧
      t * (1 - eps) - debt ≤ rtpMinPop t eps debt ∧
      rtpMaxPop t eps debt ≤ t * (1 + eps) - debt ∧
      rtpEps t eps debt * rtpTarget t eps debt =
        (rtpMaxPop t eps debt - rtpMinPop t eps debt) / 2 := by
  obtain ⟨hd1, hd2⟩ := abs_le.mp hdebt
  have h1 : t * (1 - eps) ≤ t * (1 + eps) := by nlinarith
  have h2 : t * (1 - eps) ≤ t * (1 + eps) - debt := by nlinarith
  have h3 : t * (1 - eps) - debt ≤ t * (1 + eps) := by nlinarith
  have h4 : t * (1 - eps) - debt ≤ t * (1 + eps) - debt := by nlinarith
  have hmm : rtpMinPop t eps debt ≤ rtpMaxPop t eps debt := by
    unfold rtpMinPop rtpMaxPop
    exact max_le (le_min h1 h2) (le_min h3 h4)
  have hminlo : t * (1 - eps) ≤ rtpMinPop t eps debt := by
    unfold rtpMinPop
    exact le_max_left _ _
  have hT : 0 < rtpTarget t eps debt := by
    have hpos : 0 < t * (1 - eps) := by nlinarith
    unfold rtpTarget
    have h5 : 0 < rtpMinPop t eps debt := lt_of_lt_of_le hpos hminlo
    linarith
  refine ⟨hmm, hT, hminlo, ?_, ?_, ?_, ?_⟩
  · unfold rtpMaxPop
    exact min_le_left _ _
  · unfold rtpMinPop
    exact le_max_right _ _
  · unfold rtpMaxPop
    exact min_le_right _ _
  · unfold rtpEps
    have h2T : rtpTarget t eps debt ≠ 0 := ne_of_gt hT
    field_simp
    ring

theorem map_fst_pair (l : List Nat) (lab : Nat) :
    l.map (Prod.fst ∘ fun n => (n, lab)) = l := by
  induction l with
  | nil => rfl
  | cons a l2 ih2 =>
      rw [List.map_cons, ih2]
      rfl

theorem rtpLoop_spec (g : FinGraph) (hWF : g.WF) (pop : Nat → ℚ)
    (t eps : ℚ) (ht : 0 < t) (heps0 : 0 ≤ eps) (heps1 : eps < 1)
    (ma : Nat) :
    ∀ (labels : List Nat), labels ≠ [] → labels.Nodup →
    ∀ (remaining : List Nat) (debt : ℚ) (r : Rng)
      (acc : List (Nat × Nat)) (asgn : List (Nat × Nat)) (rfin : Rng),
      (∀ x ∈ remaining, x ∈ g.nodes) → remaining.Nodup →
      popSum pop remaining = labels.length * t - debt →
      |debt| ≤ eps * t →
      rtpLoop g pop t eps ma labels remaining debt r acc =
        .ok (asgn, rfin) →
      ∃ newpairs, asgn = acc ++ newpairs ∧
        (newpairs.map Prod.fst).Perm remaining ∧
        (∀ q ∈ newpairs, q.2 ∈ labels) ∧
        ∀ lab ∈ labels,
          |popSum pop ((newpairs.filter (fun q => q.2 = lab)).map
            Prod.fst) - t| ≤ eps * t := by
  intro labels
  induction labels with
  | nil => intro hne; exact absurd rfl hne
  | cons lab rest ih =>
      intro hne hnd remaining debt r acc asgn rfin hsub hrnd hpop hdebt h
      cases rest with
      | nil =>
          simp only [rtpLoop, Except.ok.injEq, Prod.mk.injEq] at h
          obtain ⟨ha, hr⟩ := h
          refine ⟨remaining.map (fun n => (n, lab)), ha.symm, ?_, ?_, ?_⟩
          · rw [List.map_map, map_fst_pair]
          · intro q hq
            obtain ⟨n, hn, hq2⟩ := List.mem_map.mp hq
            rw [← hq2]
            simp
          · intro lab' hlab'
            rw [List.mem_singleton] at hlab'
            subst hlab'
            have hfe : (remaining.map (fun n => (n, lab'))).filter
                (fun q => q.2 = lab') =
                remaining.map (fun n => (n, lab')) := by
              rw [List.filter_eq_self]
              intro q hq
              obtain ⟨n, hn, hq2⟩ := List.mem_map.mp hq
              rw [← hq2]
              simp
            rw [hfe]
            have hkeys : (remaining.map (fun n => (n, lab'))).map Prod.fst
                = remaining := by rw [List.map_map, map_fst_pair]
            rw [hkeys]
            have hval : popSum pop remaining - t = -debt := by
              rw [hpop]
              simp only [List.length_cons, List.length_nil]
              push_cast
              ring
            rw [hval, abs_neg]
            exact hdebt
      | cons lab2 labs =>
          cases hbp : bipartition_tree (g.subgraphOf remaining) pop
              (rtpTarget t eps debt) (rtpEps t eps debt) ma r true
              Option.none with
          | error e =>
              simp only [rtpLoop, hbp] at h
              exact Except.noConfusion h
          | ok pr =>
              obtain ⟨part, r2⟩ := pr
              simp only [rtpLoop, hbp] at h
              have hsubWF := subgraphOf_WF g hWF remaining
              obtain ⟨hpnd, hpsub0, hpband, hc1, hc2⟩ :=
                bipartition_attempts_ok (g.subgraphOf remaining) hsubWF pop
                  (rtpTarget t eps debt) (rtpEps t eps debt) true ma
                  Option.none (fun t0 ht0 => absurd ht0 (by simp)) r part
                  r2 hbp
              have hpsub : ∀ x ∈ part, x ∈ remaining := fun x hx =>
                ((subgraphOf_nodes g remaining x).mp (hpsub0 x hx)).2
              obtain ⟨hbd, hT, hminlo, hmaxhi, hminlo2, hmaxhi2, hcancel⟩ :=
                rtp_bounds t eps debt ht heps0 heps1 hdebt
              rw [hcancel] at hpband
              obtain ⟨hb1, hb2⟩ := abs_le.mp hpband
              have hplo : rtpMinPop t eps debt ≤ popSum pop part := by
                unfold rtpTarget at hb1
                linarith
              have hphi : popSum pop part ≤ rtpMaxPop t eps debt := by
                unfold rtpTarget at hb2
                linarith
              obtain ⟨hsplit, hdnd, hdpop⟩ :=
                popSum_listDiff pop hrnd hpnd hpsub
              have hsub2 : ∀ x ∈ listDiff remaining part, x ∈ g.nodes := by
                intro x hx
                simp only [listDiff, List.mem_filter] at hx
                exact hsub x hx.1
              have hpop2 : popSum pop (listDiff remaining part) =
                  (lab2 :: labs).length * t -
                    (debt + (popSum pop part - t)) := by
                rw [hdpop, hpop]
                simp only [List.length_cons]
                push_cast
                ring
              have hdebt2 : |debt + (popSum pop part - t)| ≤ eps * t := by
                rw [abs_le]
                constructor
                · nlinarith [hminlo2, hplo]
                · nlinarith [hmaxhi2, hphi]
              have hnd2 : (lab2 :: labs).Nodup := hnd.of_cons
              obtain ⟨np2, hasgn2, hkeys2, hlabs2, hband2⟩ :=
                ih (by simp) hnd2 (listDiff remaining part)
                  (debt + (popSum pop part - t)) r2
                  (acc ++ part.map (fun n => (n, lab))) asgn rfin hsub2
                  hdnd hpop2 hdebt2 h
              refine ⟨part.map (fun n => (n, lab)) ++ np2, ?_, ?_, ?_, ?_⟩
              · rw [hasgn2, List.append_assoc]
              · have hkeq : ((part.map (fun n => (n, lab)) ++ np2).map
                    Prod.fst) = part ++ np2.map Prod.fst := by
                  rw [List.map_append, List.map_map, map_fst_pair]
                rw [hkeq]
                exact (hkeys2.append_left part).trans hsplit
              · intro q hq
                rcases List.mem_append.mp hq with hq | hq
                · obtain ⟨n, hn, hq2⟩ := List.mem_map.mp hq
                  rw [← hq2]
                  simp
                · exact List.mem_cons_of_mem lab (hlabs2 q hq)
              · intro lab' hlab'
                rcases List.mem_cons.mp hlab' with hl | hl
                · subst hl
                  have hf1 : (part.map (fun n => (n, lab'))).filter
                      (fun q => q.2 = lab') =
                      part.map (fun n => (n, lab')) := by
                    rw [List.filter_eq_self]
                    intro q hq
                    obtain ⟨n, hn, hq2⟩ := List.mem_map.mp hq
                    rw [← hq2]
                    simp
                  have hf2 : np2.filter (fun q => q.2 = lab') = [] := by
                    rw [List.filter_eq_nil_iff]
                    intro q hq
                    have hql := hlabs2 q hq
                    have hni : lab' ∉ lab2 :: labs :=
                      (List.nodup_cons.mp hnd).1
                    simp only [decide_eq_true_eq]
                    intro hq2
                    rw [hq2] at hql
                    exact hni hql
                  rw [List.filter_append, hf1, hf2, List.append_nil]
                  have hkeys : (part.map (fun n => (n, lab'))).map Prod.fst
                      = part := by rw [List.map_map, map_fst_pair]
                  rw [hkeys, abs_le]
                  constructor
                  · nlinarith [hminlo, hplo]
                  · nlinarith [hmaxhi, hphi]
                · have hne2 : lab ≠ lab' := by
                    intro hcon
                    rw [hcon] at hnd
                    exact (List.nodup_cons.mp hnd).1 hl
                  have hf1 : (part.map (fun n => (n, lab))).filter
                      (fun q => q.2 = lab') = [] := by
                    rw [List.filter_eq_nil_iff]
                    intro q hq
                    obtain ⟨n, hn, hq2⟩ := List.mem_map.mp hq
                    rw [← hq2]
                    simp only [decide_eq_true_eq]
                    exact fun hc => hne2 hc
                  rw [List.filter_append, hf1, List.nil_append]
                  exact hband2 lab' hl

/-- C5: every successful recursive_tree_part call on a well-formed
graph over K distinct part labels, with the population target equal to
the total population divided by K (0 < target, 0 <= epsilon < 1),
returns an assignment in which every input node is mapped to exactly
one label, only the given labels are used, and each label's total
population p satisfies |p - target| / target <= epsilon. -/
theorem recursive_tree_part_correct (g : FinGraph) (hWF : g.WF)
    (pop : Nat → ℚ) (parts : List Nat) (pop_target eps : ℚ)
    (ht : 0 < pop_target) (heps0 : 0 ≤ eps) (heps1 : eps < 1)
    (hparts : parts ≠ []) (hpartsnd : parts.Nodup) (ma : Nat) (r : Rng)
    (htotal : popSum pop g.nodes = parts.length * pop_target)
    (asgn : List (Nat × Nat)) (rfin : Rng)
    (h : recursive_tree_part g parts pop_target pop eps ma r =
      .ok (asgn, rfin)) :
    (asgn.map Prod.fst).Perm g.nodes ∧ (asgn.map Prod.fst).Nodup ∧
      (∀ q ∈ asgn, q.2 ∈ parts) ∧
      ∀ lab ∈ parts,
        |popSum pop ((asgn.filter (fun q => q.2 = lab)).map Prod.fst) -
            pop_target| / pop_target ≤ eps := by
  obtain ⟨np, hasgn, hkeys, hlabs, hband⟩ := rtpLoop_spec g hWF pop
    pop_target eps ht heps0 heps1 ma parts hparts hpartsnd g.nodes 0 r []
    asgn rfin (fun x hx => hx) hWF.nodup (by rw [htotal]; ring)
    (by simpa using mul_nonneg heps0 ht.le) h
  rw [List.nil_append] at hasgn
  subst hasgn
  refine ⟨hkeys, hkeys.nodup_iff.mpr hWF.nodup, hlabs, ?_⟩
  intro lab hlab
  rw [div_le_iff₀ ht]
  exact hband lab hlab

unseal Rat.add Rat.mul Rat.sub Rat.inv Rat.ofScientific in
/-- Witness for C5: a concrete successful two-label run on the 2-node
path graph with unit populations, target 1 and epsilon 1/2. -/
theorem recursive_tree_part_correct_witness :
    (([(1, 10), (0, 20)] : List (Nat × Nat)).map Prod.fst).Perm
        (⟨[0, 1], [(0, 1)]⟩ : FinGraph).nodes ∧
      (([(1, 10), (0, 20)] : List (Nat × Nat)).map Prod.fst).Nodup ∧
      (∀ q ∈ ([(1, 10), (0, 20)] : List (Nat × Nat)),
        q.2 ∈ [10, 20]) ∧
      ∀ lab ∈ [10, 20],
        |popSum (fun _ => 1)
            ((([(1, 10), (0, 20)] : List (Nat × Nat)).filter
              (fun q => q.2 = lab)).map Prod.fst) - 1| / 1 ≤ 1 / 2 :=
  recursive_tree_part_correct ⟨[0, 1], [(0, 1)]⟩
    ⟨by decide, by decide, by decide, by decide⟩ (fun _ => 1) [10, 20] 1
    (1 / 2) (by norm_num) (by norm_num) (by norm_num) (by decide)
    (by decide) 5 ⟨2018⟩ (by decide) [(1, 10), (0, 20)] ⟨429999664⟩
    (by decide)

/-! ## C6: subgraph node-id translation and the spectral proposal -/

theorem map_parentOf_range (sg : SubgraphView) :
    translate_subgraph_node_ids_for_set_of_nodes sg sg.localNodes =
      sg.parentIds := by
  apply List.ext_getElem
  · simp [translate_subgraph_node_ids_for_set_of_nodes,
      SubgraphView.localNodes]
  · intro i h1 h2
    simp only [translate_subgraph_node_ids_for_set_of_nodes,
      SubgraphView.localNodes, List.getElem_map, List.getElem_range,
      SubgraphView.parentOf]
    rw [List.getD_eq_getElem sg.parentIds 0 h2]

/-- C6: the subgraph view carries a correct translation map -
translating the full local node set gives exactly the parent node set,
a local node's data is its parent node's data, and translating the
flips would re-key them onto the parent node set - but spectral_recom
applies spectral_cut's clusters as flips without that translation: on
the merged parent node set [4, 5, 6, 7, 8] the applied flip keys are
the subgraph-local ids [0, 1, 2, 3, 4], not the parent ids. -/
theorem subgraph_translation_vs_spectral_recom_flips :
    (∀ sg : SubgraphView,
      translate_subgraph_node_ids_for_set_of_nodes sg sg.localNodes =
        sg.parentIds) ∧
      (∀ (sg : SubgraphView) (pd : Nat → PyVal) (n : Nat),
        sg.node_data_of pd n = pd (sg.parentOf n)) ∧
      (∀ (sg : SubgraphView) (labels : Nat × Nat)
        (colors : Nat → Bool),
        (translate_subgraph_node_ids_for_flips sg
          (spectral_recom_flips sg labels colors)).map Prod.fst =
          sg.parentIds) ∧
      (spectral_recom_flips ⟨[4, 5, 6, 7, 8]⟩ (1, 2)
          (fun _ => false)).map Prod.fst = [0, 1, 2, 3, 4] ∧
      (spectral_recom_flips ⟨[4, 5, 6, 7, 8]⟩ (1, 2)
          (fun _ => false)).map Prod.fst ≠ [4, 5, 6, 7, 8] := by
  refine ⟨map_parentOf_range, fun sg pd n => rfl, ?_, by decide,
    by decide⟩
  intro sg labels colors
  have h1 : (translate_subgraph_node_ids_for_flips sg
      (spectral_recom_flips sg labels colors)).map Prod.fst =
      translate_subgraph_node_ids_for_set_of_nodes sg sg.localNodes := by
    simp [translate_subgraph_node_ids_for_flips, spectral_recom_flips,
      spectral_cut_clusters, translate_subgraph_node_ids_for_set_of_nodes,
      List.map_map, Function.comp]
  rw [h1, map_parentOf_range]

/-! ## C8: the random source is the shared module generator -/

unseal Rat.add Rat.mul Rat.sub Rat.inv Rat.ofScientific in
/-- C8 counterexample: spectral_cut takes no random source - its
parameters are graph, part_labels, weight_type and lap_type - and its
random weights advance the shared module generator in place: an
identical second call made right after the first (same inputs, the
module state as the first call left it) produces different weights, so
a call is not replayable without externally re-seeding the single
shared source. -/
theorem spectral_cut_consumes_shared_generator :
    spectral_cut_params =
        ["graph", "part_labels", "weight_type", "lap_type"] ∧
      "rng" ∉ spectral_cut_params ∧
      "random_source" ∉ spectral_cut_params ∧
      "seed" ∉ spectral_cut_params ∧
      (spectral_cut_weights [0, 1] ⟨2018⟩).2 ≠ (⟨2018⟩ : Rng) ∧
      (spectral_cut_weights [0, 1]
          ((spectral_cut_weights [0, 1] ⟨2018⟩).2)).1 ≠
        (spectral_cut_weights [0, 1] ⟨2018⟩).1 :=
  ⟨rfl, by decide, by decide, by decide, by decide, by decide⟩

/-- C8 (amended): the model's generator state stands for the single
shared module source of spec section 5 (there is no injected source),
and two runs started from the same generator state with the same
inputs produce identical sampled spanning trees, identical
bipartitions (cut selections) and identical recursive-partition
assignments. -/
theorem same_state_same_results (r1 r2 : Rng)
    (h : r1.state = r2.state) :
    (∀ g, random_spanning_tree g r1 = random_spanning_tree g r2) ∧
      (∀ g fuel, uniform_spanning_tree g fuel r1 =
        uniform_spanning_tree g fuel r2) ∧
      (∀ g pop t e ma os tr, bipartition_tree g pop t e ma r1 os tr =
        bipartition_tree g pop t e ma r2 os tr) ∧
      (∀ g parts t pop e ma,
        recursive_tree_part g parts t pop e ma r1 =
          recursive_tree_part g parts t pop e ma r2) := by
  have heq : r1 = r2 := by
    cases r1
    cases r2
    simpa using h
  subst heq
  exact ⟨fun _ => rfl, fun _ _ => rfl, fun _ _ _ _ _ _ _ => rfl,
    fun _ _ _ _ _ _ => rfl⟩

/-- Witness for C8 at a concrete generator state. -/
theorem same_state_same_results_witness :
    (∀ g, random_spanning_tree g ⟨2018⟩ = random_spanning_tree g ⟨2018⟩) ∧
      (∀ g fuel, uniform_spanning_tree g fuel ⟨2018⟩ =
        uniform_spanning_tree g fuel ⟨2018⟩) ∧
      (∀ g pop t e ma os tr,
        bipartition_tree g pop t e ma ⟨2018⟩ os tr =
          bipartition_tree g pop t e ma ⟨2018⟩ os tr) ∧
      ∀ g parts t pop e ma,
        recursive_tree_part g parts t pop e ma ⟨2018⟩ =
          recursive_tree_part g parts t pop e ma ⟨2018⟩ :=
  same_state_same_results ⟨2018⟩ ⟨2018⟩ rfl

end GerryChain
